import Mathlib

/-!
# Verification of the AgenticGoKit trace analysis/visualization engine

A shallow embedding, in Lean 4, of the trace-explorer core of the
AgenticGoKit repository: span parsing helpers, tree reconstruction
(`BuildSpanTree` / `FlattenTree`), the metrics calculator, the live-tail
monitor, the interactive explorer's error-jump machinery, the audit event
classifier (`classifySpan` / `spanToEvent` / `Collect`) and the Mermaid
hierarchy diagram generator (`GenerateMermaidWithHierarchy`).

Modelling conventions, stated once here:

* Go `interface{}` values decoded from JSON are modelled by the closed
  inductive `GoVal`.  JSON numbers decode to Go `float64`; every numeric
  attribute the engine consumes is an integer in the logs, and none of the
  verified properties depends on fractional values, so numbers are carried
  as `Int` and Go's `int(t)` truncation is the identity on them.
* Go timestamps (`time.Time`) are carried as `Int` nanoseconds since the
  Unix epoch.  `time.Parse(time.RFC3339, s)` is modelled by an executable
  RFC 3339 parser (`parseRFC3339`); Go's zero `time.Time` (year 1) is the
  constant `goZeroTimeNanos`, which is what an ignored parse error leaves
  behind.
* Go maps are modelled as association lists with insert-overwrite
  (last value wins) and first-match lookup.  Go's map *iteration* order is
  unspecified; wherever the source iterates a map the model fixes the
  canonical order of first key insertion, and every theorem that depends
  on this choice says so in its documentation.
* Pointer-linked `SpanNode` trees are modelled as an arena: node = index
  into the input span list, with children/parent/expanded kept in tables,
  exactly in the order the Go code appends them.  Recursion over the tree
  is fuelled by the arena size; in the Go code every node reachable from a
  root lies on a simple path (each node gains at most one parent edge), so
  depth < arena size and the fuel is never exhausted on the nodes the Go
  code visits.
* A Go run-time panic (failed type assertion) is modelled by
  `Except GoPanic`.
-/

set_option linter.unusedVariables false

namespace AGK

/-! ## Go dynamic values (`interface{}` after JSON decoding) -/

/-- A Go `interface{}` value as produced by `encoding/json`:
strings, numbers (see the numeric convention in the file header),
booleans, null, JSON objects (`map[string]interface{}`) and arrays. -/
inductive GoVal where
  | str (s : String)
  | num (n : Int)
  | bool (b : Bool)
  | null
  | obj (fields : List (String × GoVal))
  | arr (elems : List GoVal)
deriving Repr

/-- First-match lookup in a JSON object (Go map keys are unique, so
first-match agrees with Go's map indexing). -/
def lookupField (fields : List (String × GoVal)) (k : String) : Option GoVal :=
  match fields with
  | [] => none
  | (k', v) :: rest => if k' = k then some v else lookupField rest k

/-- Insert-overwrite for Go map assignment `m[k] = v`: an existing key keeps
its position and gets the new value, a new key is appended.  Iteration of
the resulting list is the canonical first-insertion order. -/
def mapInsert (m : List (String × GoVal)) (k : String) (v : GoVal) :
    List (String × GoVal) :=
  match m with
  | [] => [(k, v)]
  | (k', v') :: rest =>
      if k' = k then (k', v) :: rest else (k', v') :: mapInsert rest k v

/-! ## A structural comparison sort

Go's `sort.Slice` is an unspecified-order, unstable comparison sort; it
is modelled by a stable insertion sort over the induced non-strict order
(structural recursion, so that closed terms reduce in the kernel).  The
verified properties do not depend on the tie order. -/

def insertLE {α : Type} (le : α → α → Bool) (x : α) : List α → List α
  | [] => [x]
  | y :: ys => if le x y then x :: y :: ys else y :: insertLE le x ys

def insertionSort {α : Type} (le : α → α → Bool) : List α → List α
  | [] => []
  | x :: xs => insertLE le x (insertionSort le xs)

/-! ## ASCII string helpers (Go `strings.ToLower` / `strings.Contains`)

All span names and attribute keys the engine compares are ASCII, so the
Unicode part of Go's `strings.ToLower` is irrelevant here. -/

def lowerChar (c : Char) : Char :=
  if 'A' ≤ c ∧ c ≤ 'Z' then Char.ofNat (c.toNat + 32) else c

def toLowerStr (s : String) : String :=
  String.mk (s.toList.map lowerChar)

def charsStartWith : List Char → List Char → Bool
  | [], _ => true
  | _ :: _, [] => false
  | a :: as, b :: bs => a = b && charsStartWith as bs

def charsHaveSub (needle : List Char) : List Char → Bool
  | [] => charsStartWith needle []
  | c :: rest => charsStartWith needle (c :: rest) || charsHaveSub needle rest

/-- Go `strings.Contains hay needle`. -/
def strContains (hay needle : String) : Bool :=
  charsHaveSub needle.toList hay.toList

/-- Go `strings.Contains(strings.ToLower hay, needle)`, the pervasive
case-insensitive name test of the engine. -/
def containsLower (hay needle : String) : Bool :=
  strContains (toLowerStr hay) needle

/-! ## RFC 3339 timestamps (Go `time.Parse(time.RFC3339, s)`)

The parser accepts `YYYY-MM-DDTHH:MM:SS[.fff...][Z|±HH:MM]`, range-checks
every field the way Go's parser does, and yields nanoseconds since the
Unix epoch.  The civil-date conversion is the standard days-from-civil
computation. -/

def isDigitCh (c : Char) : Bool := '0' ≤ c && c ≤ '9'

def digitVal (c : Char) : Nat := c.toNat - '0'.toNat

def readFixedNat (acc : Nat) : Nat → List Char → Option (Nat × List Char)
  | 0, cs => some (acc, cs)
  | _ + 1, [] => none
  | k + 1, c :: cs =>
      if isDigitCh c then readFixedNat (acc * 10 + digitVal c) k cs else none

def expectChar (ch : Char) : List Char → Option (List Char)
  | [] => none
  | c :: cs => if c = ch then some cs else none

def spanDigits : List Char → (List Char × List Char)
  | [] => ([], [])
  | c :: cs =>
      if isDigitCh c then
        let p := spanDigits cs
        (c :: p.1, p.2)
      else ([], c :: cs)

/-- Nanoseconds denoted by a fractional-second digit string (Go keeps the
first nine digits). -/
def fracNanos (ds : List Char) : Nat :=
  let d9 := ds.take 9
  (d9.foldl (fun a c => a * 10 + digitVal c) 0) * 10 ^ (9 - d9.length)

/-- Optional fractional seconds: absent, or a dot followed by at least one
digit (a bare dot is a parse error, as in Go). -/
def parseFrac : List Char → Option (Nat × List Char)
  | '.' :: rest =>
      let p := spanDigits rest
      if p.1.isEmpty then none else some (fracNanos p.1, p.2)
  | cs => some (0, cs)

/-- Timezone suffix: `Z` or `±HH:MM`, consuming the whole remainder.
Returns the offset east of UTC in seconds. -/
def parseOffset : List Char → Option Int
  | ['Z'] => some 0
  | c :: rest =>
      if c = '+' ∨ c = '-' then
        match readFixedNat 0 2 rest with
        | some (oh, cs) =>
            match expectChar ':' cs with
            | some cs' =>
                match readFixedNat 0 2 cs' with
                | some (om, []) =>
                    if oh ≤ 23 ∧ om ≤ 59 then
                      let secs : Int := (oh : Int) * 3600 + (om : Int) * 60
                      some (if c = '-' then -secs else secs)
                    else none
                | _ => none
            | none => none
        | none => none
      else none
  | _ => none

def isLeapYear (y : Nat) : Bool :=
  y % 4 = 0 && (y % 100 ≠ 0 || y % 400 = 0)

def daysInMonth (y m : Nat) : Nat :=
  match m with
  | 1 => 31 | 2 => if isLeapYear y then 29 else 28
  | 3 => 31 | 4 => 30 | 5 => 31 | 6 => 30
  | 7 => 31 | 8 => 31 | 9 => 30 | 10 => 31 | 11 => 30 | 12 => 31
  | _ => 0

/-- Days since 1970-01-01 of the civil date y-m-d (proleptic Gregorian). -/
def daysFromCivil (y : Int) (m d : Nat) : Int :=
  let y' : Int := if m ≤ 2 then y - 1 else y
  let era : Int := (if 0 ≤ y' then y' else y' - 399).tdiv 400
  let yoe : Int := y' - era * 400
  let mp : Nat := (m + 9) % 12
  let doy : Int := ((153 * (mp : Int) + 2).tdiv 5) + (d : Int) - 1
  let doe : Int := yoe * 365 + yoe.tdiv 4 - yoe.tdiv 100 + doy
  era * 146097 + doe - 719468

/-- The `YYYY-MM-DD` part. -/
def parseDatePart (cs : List Char) : Option (Nat × Nat × Nat × List Char) := do
  let (y, cs) ← readFixedNat 0 4 cs
  let cs ← expectChar '-' cs
  let (mo, cs) ← readFixedNat 0 2 cs
  let cs ← expectChar '-' cs
  let (d, cs) ← readFixedNat 0 2 cs
  some (y, mo, d, cs)

/-- The `HH:MM:SS` part. -/
def parseTimePart (cs : List Char) : Option (Nat × Nat × Nat × List Char) := do
  let (hh, cs) ← readFixedNat 0 2 cs
  let cs ← expectChar ':' cs
  let (mi, cs) ← readFixedNat 0 2 cs
  let cs ← expectChar ':' cs
  let (ss, cs) ← readFixedNat 0 2 cs
  some (hh, mi, ss, cs)

/-- Field range checks, as in Go's parser. -/
def fieldsValid (y mo d hh mi ss : Nat) : Bool :=
  1 ≤ mo && mo ≤ 12 && 1 ≤ d && d ≤ daysInMonth y mo &&
    hh ≤ 23 && mi ≤ 59 && ss ≤ 59

/-- `time.Parse(time.RFC3339, s)`: nanoseconds since the Unix epoch, or
`none` on any parse error. -/
def parseRFC3339 (s : String) : Option Int := do
  let (y, mo, d, cs) ← parseDatePart s.toList
  let cs ← expectChar 'T' cs
  let (hh, mi, ss, cs) ← parseTimePart cs
  let (frac, cs) ← parseFrac cs
  let off ← parseOffset cs
  if fieldsValid y mo d hh mi ss then
    some ((daysFromCivil (y : Int) mo d * 86400 +
        (hh : Int) * 3600 + (mi : Int) * 60 + (ss : Int) - off) * 1000000000
        + (frac : Int))
  else none

/-- Go's zero `time.Time` (0001-01-01T00:00:00Z) in epoch nanoseconds;
this is the value an ignored `time.Parse` error leaves behind. -/
def goZeroTimeNanos : Int := daysFromCivil 1 1 1 * 86400 * 1000000000

/-- The timestamp used by comparisons that ignore the parse error
(`t1, _ := time.Parse(...)`). -/
def parsedOrZero (s : String) : Int :=
  (parseRFC3339 s).getD goZeroTimeNanos

end AGK

namespace AGK
namespace Tui

/-! ## `internal/tui/span_tree.go`: the span data model -/

/-- `SpanContext` of `span_tree.go`. -/
structure SpanContext where
  traceID : String
  spanID : String
deriving Repr, DecidableEq

/-- `ParentSpan` of `span_tree.go`. -/
structure ParentSpan where
  traceID : String
  spanID : String
deriving Repr, DecidableEq

/-- `SpanStatus` of `span_tree.go`. -/
structure SpanStatus where
  code : String
  description : String
deriving Repr, DecidableEq

/-- `Span` of `span_tree.go`.  `Attributes` is Go's
`[]map[string]interface{}`: a list of JSON objects, each expected (but not
required) to have the shape `{Key: string, Value: {Value: v}}`. -/
structure Span where
  name : String
  startTime : String
  endTime : String
  attributes : List (List (String × GoVal))
  spanContext : SpanContext
  parent : ParentSpan
  spanKind : Int
  status : SpanStatus
  childSpanCount : Int
  instrumentationScope : List (String × GoVal)
deriving Repr

instance : Inhabited Span :=
  ⟨⟨"", "", "", [], ⟨"", ""⟩, ⟨"", ""⟩, 0, ⟨"", ""⟩, 0, []⟩⟩

/-- `Span.GetAllAttributes`: flatten the attribute objects into one Go map,
skipping entries without a string `Key` or without the nested
`Value.Value`; later occurrences of a key overwrite earlier ones. -/
def GetAllAttributes (s : Span) : List (String × GoVal) :=
  s.attributes.foldl
    (fun acc attr =>
      match lookupField attr "Key" with
      | some (GoVal.str key) =>
          match lookupField attr "Value" with
          | some (GoVal.obj valueFields) =>
              match lookupField valueFields "Value" with
              | some v => mapInsert acc key v
              | none => acc
          | _ => acc
      | _ => acc)
    []

/-- `calculateDuration`: whole milliseconds between the two timestamps, or
0 when either is empty or unparseable (Go division truncates toward 0). -/
def calculateDuration (startTime endTime : String) : Int :=
  if startTime = "" ∨ endTime = "" then 0
  else
    match parseRFC3339 startTime with
    | none => 0
    | some s =>
        match parseRFC3339 endTime with
        | none => 0
        | some e => (e - s).tdiv 1000000

/-! ## `BuildSpanTree`: arena construction

Node = index of the span in the input list.  `nodeMap` is modelled as an
association list in canonical first-insertion key order with last-wins
values (Go map assignment), see the file header for the iteration-order
convention. -/

/-- Go map assignment `nodeMap[id] = node` for the span-id index:
existing key keeps its position, value replaced. -/
def insertEntry (k : String) (v : Nat) : List (String × Nat) → List (String × Nat)
  | [] => [(k, v)]
  | (k', v') :: rest =>
      if k' = k then (k', v) :: rest else (k', v') :: insertEntry k v rest

/-- The `nodeMap` of `BuildSpanTree`: every span indexed by its SpanID,
later spans overwriting earlier ones with the same id. -/
def mapEntries (spans : List Span) : List (String × Nat) :=
  (spans.enum.foldl (fun m p => insertEntry (p.2.spanContext.spanID) p.1 m) [])

def lookupEntry (k : String) : List (String × Nat) → Option Nat
  | [] => none
  | (k', v) :: rest => if k' = k then some v else lookupEntry k rest

/-- Arena indices that survive in `nodeMap` (spans shadowed by a later
duplicate SpanID are absent: only map values enter the tree). -/
def entryIdxs (spans : List Span) : List Nat :=
  (mapEntries spans).map (·.2)

/-- `""` or the all-zero sentinel mean "no parent". -/
def isNoParentID (pid : String) : Bool :=
  pid = "" || pid = "0000000000000000"

/-- Parent resolution of the tree-structure loop: `none` when the span is
treated as a root (no parent id, or the id does not resolve in
`nodeMap`), `some j` when it attaches as a child of arena node `j`. -/
def parentResolve (spans : List Span) (i : Nat) : Option Nat :=
  let pid := (spans.getD i default).parent.spanID
  if isNoParentID pid then none else lookupEntry pid (mapEntries spans)

/-- Children of arena node `j`, in the order the structure loop appends
them (canonical `nodeMap` iteration order). -/
def childrenOf (spans : List Span) (j : Nat) : List Nat :=
  (entryIdxs spans).filter (fun i => parentResolve spans i = some j)

/-- Root nodes, in `nodeMap` iteration order (before the final sort). -/
def rootsOf (spans : List Span) : List Nat :=
  (entryIdxs spans).filter (fun i => (parentResolve spans i).isNone)

/-! ## `sortNodesByTime`: the exchange sort of `span_tree.go`

The Go loop `for i; for j > i: if t(a[i]).After(t(a[j])) swap` is the
classic exchange sort: one pass moves the minimum to the front, the
swapped-out candidates landing where the swaps happened.  `exchPass` is
that inner loop (carrying the current front element), `exchSort` the outer
loop.  It is *not* a stable sort. -/

def exchPass {α : Type} (gt : α → α → Bool) : α → List α → α × List α
  | x, [] => (x, [])
  | x, y :: ys =>
      if gt x y then
        let p := exchPass gt y ys
        (p.1, x :: p.2)
      else
        let p := exchPass gt x ys
        (p.1, y :: p.2)

theorem exchPass_length {α : Type} (gt : α → α → Bool) (x : α) (l : List α) :
    ((exchPass gt x l).2).length = l.length := by
  induction l generalizing x with
  | nil => simp [exchPass]
  | cons y ys ih =>
      simp only [exchPass]
      split <;> simp [ih]

/-- The outer loop, fuelled so that it reduces inside the kernel; the
fuel (list length) is exact because `exchPass` preserves length. -/
def exchSortFuel {α : Type} (gt : α → α → Bool) : Nat → List α → List α
  | 0, l => l
  | _ + 1, [] => []
  | fuel + 1, x :: xs =>
      let p := exchPass gt x xs
      p.1 :: exchSortFuel gt fuel p.2

def exchSort {α : Type} (gt : α → α → Bool) (l : List α) : List α :=
  exchSortFuel gt l.length l

theorem exchSortFuel_eq_of_le {α : Type} (gt : α → α → Bool) :
    ∀ (f g : Nat) (l : List α), l.length ≤ f → l.length ≤ g →
      exchSortFuel gt f l = exchSortFuel gt g l := by
  intro f
  induction f with
  | zero =>
      intro g l hf _
      have : l = [] := List.eq_nil_of_length_eq_zero (Nat.le_zero.mp hf)
      subst this
      cases g <;> rfl
  | succ f ih =>
      intro g l hf hg
      match l, g with
      | [], 0 => rfl
      | [], g + 1 => rfl
      | x :: xs, 0 => exact absurd hg (by simp)
      | x :: xs, g + 1 =>
          simp only [exchSortFuel]
          have hlen := exchPass_length gt x xs
          have hxs : xs.length ≤ f := by simp at hf; omega
          have hxs' : xs.length ≤ g := by simp at hg; omega
          rw [ih g (exchPass gt x xs).2 (by omega) (by omega)]

/-- The recursion equation of `exchSort`, usable in inductive proofs. -/
theorem exchSort_cons {α : Type} (gt : α → α → Bool) (x : α) (xs : List α) :
    exchSort gt (x :: xs) =
      (exchPass gt x xs).1 :: exchSort gt (exchPass gt x xs).2 := by
  simp only [exchSort, List.length_cons, exchSortFuel]
  rw [exchSortFuel_eq_of_le gt xs.length (exchPass gt x xs).2.length _
      (by simp [exchPass_length]) (by simp)]

/-- The start-time key a node is sorted by; an unparseable or missing
timestamp is Go's zero time (the parse error is ignored). -/
def startKey (spans : List Span) (i : Nat) : Int :=
  parsedOrZero ((spans.getD i default).startTime)

/-- `t1.After t2` on the parsed start times of two arena nodes. -/
def nodeAfter (spans : List Span) (a b : Nat) : Bool :=
  startKey spans b < startKey spans a

/-- `sortNodesByTime` on arena indices. -/
def sortNodesByTime (spans : List Span) (l : List Nat) : List Nat :=
  exchSort (nodeAfter spans) l

/-- The children list as stored in a built node (sorted once by
`setDepths` while descending; re-sorting at read time is equivalent
because the sort is deterministic). -/
def builtChildren (spans : List Span) (j : Nat) : List Nat :=
  sortNodesByTime spans (childrenOf spans j)

/-- The root list of the built forest (`sortNodesByTime(roots)`). -/
def builtRoots (spans : List Span) : List Nat :=
  sortNodesByTime spans (rootsOf spans)

/-! ## `FlattenTree`

Fuel = arena size; see the file header for why the fuel is never
exhausted on nodes the Go code visits. -/

/-- Pre-order flatten of one subtree, fully expanded. -/
def flattenIdx (spans : List Span) : Nat → Nat → List Nat
  | 0, _ => []
  | fuel + 1, i =>
      i :: (builtChildren spans i).flatMap (flattenIdx spans fuel)

/-- `FlattenTree` over the fully-expanded forest built from `spans`. -/
def flattenFull (spans : List Span) : List Nat :=
  (builtRoots spans).flatMap (flattenIdx spans spans.length)

/-- Pre-order flatten which descends into a node's children only when the
node is expanded (`flattenNode` of `span_tree.go`). -/
def flattenVisIdx (spans : List Span) (exp : List Bool) : Nat → Nat → List Nat
  | 0, _ => []
  | fuel + 1, i =>
      i ::
        (if exp.getD i true then
          (builtChildren spans i).flatMap (flattenVisIdx spans exp fuel)
        else [])

/-- `FlattenTree` honouring the expand/collapse table. -/
def flattenVisible (spans : List Span) (exp : List Bool) : List Nat :=
  (builtRoots spans).flatMap (flattenVisIdx spans exp spans.length)

/-! ## Ancestor chains -/

/-- `m`-fold parent step (`node.Parent` chain): `parIter m i` is the `m`-th
ancestor of arena node `i`, when the chain is that long. -/
def parIter (spans : List Span) : Nat → Nat → Option Nat
  | 0, i => some i
  | m + 1, i => (parentResolve spans i).bind (parIter spans m)

/-- The ancestor list of a node, nearest parent first (the
`current := node.Parent; for current != nil` walk), fuelled. -/
def ancList (spans : List Span) : Nat → Nat → List Nat
  | 0, _ => []
  | fuel + 1, i =>
      match parentResolve spans i with
      | none => []
      | some p => p :: ancList spans fuel p

/-- Length of the parent chain down to a root, when it terminates within
the given fuel: `rankF f i = some r` means the `r`-th ancestor of `i`
exists and is a root, with `r < f`. -/
def rankF (spans : List Span) : Nat → Nat → Option Nat
  | 0, _ => none
  | fuel + 1, i =>
      match parentResolve spans i with
      | none => some 0
      | some j => (rankF spans fuel j).map (· + 1)

end Tui
end AGK

namespace AGK
namespace Tui

/-! ## `trace_viewer.go`: the metrics calculator

`MetricsCalculator.ProcessNode` reads only a node's span, its computed
`DurationMs` and `HasChildren()`; `MNode` is that view of a `*SpanNode`
(pointer identity is modelled by value). -/

/-- The view of a `*SpanNode` consumed by the metrics calculator. -/
structure MNode where
  span : Span
  durationMs : Int
  hasChildren : Bool
deriving Repr

/-- The error predicate shared by the metrics engine and the explorer:
`Status.Code` non-empty and outside {"", "Unset", "Ok"}. -/
def isErrorStatus (st : SpanStatus) : Bool :=
  st.code ≠ "" && st.code ≠ "Unset" && st.code ≠ "Ok"

/-- Bottleneck eligibility: leaf, or name contains "llm"
case-insensitively. -/
def eligibleBottleneck (node : MNode) : Bool :=
  !node.hasChildren || containsLower node.span.name "llm"

/-- The ordered-insertion attempt of `updateTop3`: `some` when the node
was inserted before the first strictly-smaller entry. -/
def top3Insert (node : MNode) : List MNode → Option (List MNode)
  | [] => none
  | s :: rest =>
      if s.durationMs < node.durationMs then some (node :: s :: rest)
      else (top3Insert node rest).map (s :: ·)

/-- `MetricsCalculator.updateTop3`: ordered insert, append while fewer
than 3 entries, truncate to 3. -/
def updateTop3 (node : MNode) (top3 : List MNode) : List MNode :=
  let l :=
    match top3Insert node top3 with
    | some l' => l'
    | none => if top3.length < 3 then top3 ++ [node] else top3
  if 3 < l.length then l.take 3 else l

/-- The `MetricsCalculator` accumulator fields. -/
structure MetricsAcc where
  totalTokens : Int
  errorCount : Nat
  slowest : Option MNode
  top3 : List MNode
deriving Repr

/-- `MetricsCalculator.ProcessNode`: token accumulation under the two
known keys, error counting, and bottleneck tracking for eligible nodes. -/
def processNode (acc : MetricsAcc) (node : MNode) : MetricsAcc :=
  let attrs := GetAllAttributes node.span
  let acc :=
    match lookupField attrs "agk.stream.tokens" with
    | some (GoVal.num t) => { acc with totalTokens := acc.totalTokens + t }
    | _ => acc
  let acc :=
    match lookupField attrs "llm.usage.total_tokens" with
    | some (GoVal.num t) => { acc with totalTokens := acc.totalTokens + t }
    | _ => acc
  let acc :=
    if isErrorStatus node.span.status then
      { acc with errorCount := acc.errorCount + 1 }
    else acc
  if eligibleBottleneck node then
    let acc :=
      match acc.slowest with
      | none => { acc with slowest := some node }
      | some s =>
          if s.durationMs < node.durationMs then { acc with slowest := some node }
          else acc
    { acc with top3 := updateTop3 node acc.top3 }
  else acc

/-- `calculateMetrics`: fold `ProcessNode` over the node list. -/
def calculateMetrics (nodes : List MNode) : MetricsAcc :=
  nodes.foldl processNode ⟨0, 0, none, []⟩

/-! ## `trace_viewer.go` + explorer variant: the model state machine

Modelled fields are the ones the verified claims touch; omitted are pure
UI state (viewports, window size, view mode, tabs, search strings, the
run list) plus `estimatedCost` (float64) and `lastUpdate` (`time.Now()`),
none of which feed back into the span set, the forest or the metrics. -/

inductive FocusArea where
  | tree
  | details
  | metadata
deriving Repr, DecidableEq

structure TuiModel where
  spans : List Span
  expanded : List Bool
  visibleNodes : List Nat
  cursor : Nat
  focusArea : FocusArea
  totalTokens : Int
  errorCount : Nat
  slowestSpan : Option MNode
  top3Slowest : List MNode
  tracePath : String
  lastOffset : Nat
  isLive : Bool
  manifestSpanCount : Nat

/-- The node view handed to the metrics calculator for arena index `i`. -/
def mnodeOf (spans : List Span) (i : Nat) : MNode :=
  let s := spans.getD i default
  { span := s
    durationMs := calculateDuration s.startTime s.endTime
    hasChildren := !(childrenOf spans i).isEmpty }

/-- `Model.computeMetrics`: recompute the four metric fields over the
*visible* node list (this is what the source does). -/
def computeMetrics (m : TuiModel) : TuiModel :=
  let acc := calculateMetrics (m.visibleNodes.map (mnodeOf m.spans))
  { m with totalTokens := acc.totalTokens, errorCount := acc.errorCount,
           slowestSpan := acc.slowest, top3Slowest := acc.top3 }

/-- `NewTraceViewerWithPath`: build the forest (all nodes expanded),
flatten, compute metrics, remember the current file size as offset. -/
def newTraceViewerWithPath (spans : List Span) (manifestSpanCount : Nat)
    (tracePath : String) (statSize : Option Nat) : TuiModel :=
  let exp := List.replicate spans.length true
  let visible := flattenVisible spans exp
  let acc := calculateMetrics (visible.map (mnodeOf spans))
  { spans := spans, expanded := exp, visibleNodes := visible, cursor := 0,
    focusArea := .tree,
    totalTokens := acc.totalTokens, errorCount := acc.errorCount,
    slowestSpan := acc.slowest, top3Slowest := acc.top3,
    tracePath := tracePath,
    lastOffset := if tracePath ≠ "" then statSize.getD 0 else 0,
    isLive := tracePath ≠ "", manifestSpanCount := manifestSpanCount }

/-- A node's error status, by arena index. -/
def isErrorIdx (spans : List Span) (i : Nat) : Bool :=
  isErrorStatus (spans.getD i default).status

/-- `handleTreeCollapse`: collapse the node under the cursor when it is
expanded and has children, otherwise move the cursor to its parent's
position in the visible list. -/
def handleTreeCollapse (m : TuiModel) : TuiModel :=
  if m.cursor < m.visibleNodes.length then
    let idx := m.visibleNodes.getD m.cursor 0
    if !(childrenOf m.spans idx).isEmpty ∧ m.expanded.getD idx true then
      let exp := m.expanded.set idx false
      { m with expanded := exp, visibleNodes := flattenVisible m.spans exp }
    else
      match parentResolve m.spans idx with
      | some p =>
          match m.visibleNodes.findIdx? (· = p) with
          | some i => { m with cursor := i }
          | none => m
      | none => m
  else m

/-- `ensureNodeVisible`: force every ancestor of the node to expanded and
rebuild the visible list. -/
def ensureNodeVisible (m : TuiModel) (idx : Nat) : TuiModel :=
  let exp := (ancList m.spans m.spans.length idx).foldl (fun e a => e.set a true) m.expanded
  { m with expanded := exp, visibleNodes := flattenVisible m.spans exp }

/-- `jumpToNextError`: scan the *visible* list forward from the cursor,
wrapping to the front on failure; on a hit set the cursor and force the
target's ancestors expanded.  (For a cursor at or past the end of the
visible list the Go wrap loop would index out of range; the claims only
concern in-range cursors.) -/
def jumpToNextError (m : TuiModel) : TuiModel :=
  if m.errorCount = 0 then m
  else
    let errAt : Nat → Bool := fun i => isErrorIdx m.spans (m.visibleNodes.getD i 0)
    let found :=
      match ((List.range m.visibleNodes.length).drop (m.cursor + 1)).find? errAt with
      | some i => some i
      | none => (List.range (m.cursor + 1)).find? errAt
    match found with
    | some i =>
        let target := m.visibleNodes.getD i 0
        ensureNodeVisible { m with cursor := i, focusArea := .tree } target
    | none => m

/-- `collectAllSpans`: the spans of the nodes in the *visible* flattened
list (this is what the source iterates). -/
def collectAllSpans (m : TuiModel) : List Span :=
  m.visibleNodes.map (fun i => m.spans.getD i default)

/-- `addNewSpans`: append the new spans to the collected span list,
rebuild the whole forest (freshly expanded), recompute metrics, update
the manifest span count. -/
def addNewSpans (m : TuiModel) (newSpans : List Span) : TuiModel :=
  let allSpans := collectAllSpans m ++ newSpans
  let exp := List.replicate allSpans.length true
  computeMetrics
    { m with spans := allSpans, expanded := exp,
             visibleNodes := flattenVisible allSpans exp,
             manifestSpanCount := allSpans.length }

/-! ## `checkFileUpdates` and the live-tail tick -/

/-- The file system as seen by one poll: `stat` result (size) and the
readable content; `none` models the respective failure.  Offsets/sizes
count characters (the logs are ASCII). -/
structure FileState where
  statSize : Option Nat
  content : Option String

def splitLinesAux : List Char → List Char → List String
  | acc, [] => [String.mk acc.reverse]
  | acc, '\n' :: rest => String.mk acc.reverse :: splitLinesAux [] rest
  | acc, c :: rest => splitLinesAux (c :: acc) rest

/-- Newline split (`strings.Split(data, "\n")`; together with the
non-empty filter this also matches `bufio.Scanner` line reading). -/
def splitLines (s : String) : List String :=
  splitLinesAux [] s.toList

/-- `ParseSpans` with the JSON decoding of one line (`encoding/json`,
external to this repository) abstracted as `decode`: empty and
undecodable lines are skipped. -/
def ParseSpans (decode : String → Option Span) (data : String) : List Span :=
  (splitLines data).filterMap (fun line => if line = "" then none else decode line)

/-- `checkFileUpdates`: no stat → nothing; size not greater than the
remembered offset → nothing; open failure → nothing; otherwise read the
lines after the offset, remember the new size, and parse the non-empty
lines. -/
def checkFileUpdates (decode : String → Option Span) (fs : FileState)
    (m : TuiModel) : List Span × TuiModel :=
  match fs.statSize with
  | none => ([], m)
  | some size =>
      if size ≤ m.lastOffset then ([], m)
      else
        match fs.content with
        | none => ([], m)
        | some content =>
            let newLines := (splitLines (content.drop m.lastOffset)).filter (· ≠ "")
            let m' := { m with lastOffset := size }
            if newLines.isEmpty then ([], m')
            else (ParseSpans decode (String.intercalate "\n" newLines), m')

/-- The `tickMsg` branch of `Update`: poll the file and, when new spans
arrived, merge them via `addNewSpans`. -/
def tickStep (decode : String → Option Span) (fs : FileState)
    (m : TuiModel) : TuiModel :=
  if m.isLive ∧ m.tracePath ≠ "" then
    let r := checkFileUpdates decode fs m
    if 0 < r.1.length then addNewSpans r.2 r.1 else r.2
  else m

end Tui
end AGK

namespace AGK
namespace Audit

/-! ## `internal/audit/collector.go`: data model and classifier -/

/-- `EventType` of the audit package. -/
inductive EventType where
  | thought
  | toolCall
  | observation
  | llmCall
  | decision
deriving Repr, DecidableEq

/-- `SpanContext` of `collector.go`. -/
structure SpanContext where
  traceID : String
  spanID : String
deriving Repr, DecidableEq

/-- `SpanStatus` of `collector.go`. -/
structure SpanStatus where
  code : String
  description : String
deriving Repr, DecidableEq

/-- `RawSpan` of `collector.go`. -/
structure RawSpan where
  name : String
  spanContext : SpanContext
  parent : SpanContext
  startTime : String
  endTime : String
  attributes : List (List (String × GoVal))
  status : SpanStatus
deriving Repr

/-- A Go run-time panic (here: a failed `val.(string)` type assertion). -/
structure GoPanic where
  msg : String
deriving Repr, DecidableEq

/-- `classifySpan`: case-insensitive substring priority
tool → llm → agent → workflow → default thought. -/
def classifySpan (name : String) : EventType :=
  let nameLower := toLowerStr name
  if strContains nameLower "tool" then .toolCall
  else if strContains nameLower "llm" then .llmCall
  else if strContains nameLower "agent" then .thought
  else if strContains nameLower "workflow" then .decision
  else .thought

/-- `TraceEvent` of the audit package (timestamps in epoch nanoseconds,
Go's zero `time.Time` being `goZeroTimeNanos`). -/
structure TraceEvent where
  timestamp : Int
  type : EventType
  spanID : String
  spanName : String
  content : String
  metadata : List (String × GoVal)
  durationMs : Int
  parentID : String
deriving Repr

instance : Inhabited TraceEvent :=
  ⟨⟨goZeroTimeNanos, .thought, "", "", "", [], 0, ""⟩⟩

/-- One iteration of the attribute loop of `spanToEvent`: entries without
a string `Key` or the nested `Value.Value` are skipped; the value goes
into `Metadata`; the content keys run the *unchecked* `val.(string)`
assertion, which panics on a non-string value. -/
def applyAttr (e : TraceEvent) (attr : List (String × GoVal)) :
    Except GoPanic TraceEvent :=
  match lookupField attr "Key" with
  | some (GoVal.str key) =>
      match lookupField attr "Value" with
      | some (GoVal.obj valueFields) =>
          match lookupField valueFields "Value" with
          | some val =>
              let e := { e with metadata := mapInsert e.metadata key val }
              if key = "agk.prompt.user" ∨ key = "agk.llm.response" then
                match val with
                | GoVal.str s => .ok { e with content := s }
                | _ => .error ⟨"interface conversion: interface is not string"⟩
              else if key = "agk.tool.arguments" then
                if e.type = EventType.toolCall then
                  match val with
                  | GoVal.str s => .ok { e with content := s }
                  | _ => .error ⟨"interface conversion: interface is not string"⟩
                else .ok e
              else if key = "agk.tool.result" then
                if e.type = EventType.observation then
                  match val with
                  | GoVal.str s => .ok { e with content := s }
                  | _ => .error ⟨"interface conversion: interface is not string"⟩
                else .ok e
              else .ok e
          | none => .ok e
      | _ => .ok e
  | _ => .ok e

/-- `spanToEvent`: timestamp and duration from the (error-checked) parses,
type from `classifySpan`, then the attribute loop. -/
def spanToEvent (s : RawSpan) : Except GoPanic TraceEvent :=
  let base : TraceEvent :=
    { timestamp := (parseRFC3339 s.startTime).getD goZeroTimeNanos
      type := classifySpan s.name
      spanID := s.spanContext.spanID
      spanName := s.name
      content := ""
      metadata := []
      durationMs :=
        match parseRFC3339 s.startTime, parseRFC3339 s.endTime with
        | some a, some b => (b - a).tdiv 1000000
        | _, _ => 0
      parentID := s.parent.spanID }
  s.attributes.foldlM applyAttr base

/-- Comparison variant of `applyAttr` with the `agk.tool.result` case
deleted, used to state that the tool-result rule is dead code. -/
def applyAttrNoToolResult (e : TraceEvent) (attr : List (String × GoVal)) :
    Except GoPanic TraceEvent :=
  match lookupField attr "Key" with
  | some (GoVal.str key) =>
      match lookupField attr "Value" with
      | some (GoVal.obj valueFields) =>
          match lookupField valueFields "Value" with
          | some val =>
              let e := { e with metadata := mapInsert e.metadata key val }
              if key = "agk.prompt.user" ∨ key = "agk.llm.response" then
                match val with
                | GoVal.str s => .ok { e with content := s }
                | _ => .error ⟨"interface conversion: interface is not string"⟩
              else if key = "agk.tool.arguments" then
                if e.type = EventType.toolCall then
                  match val with
                  | GoVal.str s => .ok { e with content := s }
                  | _ => .error ⟨"interface conversion: interface is not string"⟩
                else .ok e
              else .ok e
          | none => .ok e
      | _ => .ok e
  | _ => .ok e

/-- `spanToEvent` built on the comparison variant. -/
def spanToEventNoToolResult (s : RawSpan) : Except GoPanic TraceEvent :=
  let base : TraceEvent :=
    { timestamp := (parseRFC3339 s.startTime).getD goZeroTimeNanos
      type := classifySpan s.name
      spanID := s.spanContext.spanID
      spanName := s.name
      content := ""
      metadata := []
      durationMs :=
        match parseRFC3339 s.startTime, parseRFC3339 s.endTime with
        | some a, some b => (b - a).tdiv 1000000
        | _, _ => 0
      parentID := s.parent.spanID }
  s.attributes.foldlM applyAttrNoToolResult base

/-- `TraceSummary` (`estimated_cost`, a float64 the collector never sets,
is omitted). -/
structure TraceSummary where
  totalEvents : Nat
  thoughtCount : Nat
  toolCallCount : Nat
  llmCallCount : Nat
  totalDurationMs : Int
  tokensUsed : Int
  hasDetailedData : Bool
deriving Repr, DecidableEq

/-- `TraceObject` (timestamps in epoch nanoseconds). -/
structure TraceObject where
  runID : String
  command : String
  startTime : Int
  endTime : Int
  events : List TraceEvent
  finalOutput : String
  summary : TraceSummary
deriving Repr

/-- The per-event bookkeeping of the `Collect` loop: append the event,
bump the per-type counter (thought/tool_call/llm_call only), notice
detailed content, widen the start/end window. -/
def collectStep (obj : TraceObject) (e : TraceEvent) : TraceObject :=
  let obj := { obj with events := obj.events ++ [e] }
  let obj :=
    match e.type with
    | .thought =>
        { obj with summary := { obj.summary with thoughtCount := obj.summary.thoughtCount + 1 } }
    | .toolCall =>
        { obj with summary := { obj.summary with toolCallCount := obj.summary.toolCallCount + 1 } }
    | .llmCall =>
        { obj with summary := { obj.summary with llmCallCount := obj.summary.llmCallCount + 1 } }
    | _ => obj
  let obj :=
    if e.content ≠ "" then
      { obj with summary := { obj.summary with hasDetailedData := true } }
    else obj
  let obj :=
    if obj.startTime = goZeroTimeNanos ∨ e.timestamp < obj.startTime then
      { obj with startTime := e.timestamp }
    else obj
  if obj.endTime < e.timestamp then { obj with endTime := e.timestamp } else obj

def collectLoop : List RawSpan → TraceObject → Except GoPanic TraceObject
  | [], obj => .ok obj
  | s :: rest, obj => do
      let e ← spanToEvent s
      collectLoop rest (collectStep obj e)

/-- `Collector.Collect`.  The final `sort.Slice` (an unstable sort in Go)
is modelled by a merge sort on the same timestamp order; the verified
properties depend only on the multiset of events. -/
def collect (runID : String) (spans : List RawSpan) :
    Except GoPanic TraceObject := do
  let init : TraceObject :=
    { runID := runID, command := "", startTime := goZeroTimeNanos,
      endTime := goZeroTimeNanos, events := [], finalOutput := "",
      summary := ⟨0, 0, 0, 0, 0, 0, false⟩ }
  let obj ← collectLoop spans init
  let obj :=
    { obj with summary :=
        { obj.summary with
            totalEvents := obj.events.length
            totalDurationMs := (obj.endTime - obj.startTime).tdiv 1000000 } }
  .ok { obj with
          events := insertionSort (fun a b => a.timestamp ≤ b.timestamp) obj.events }

end Audit
end AGK

namespace AGK
namespace Audit

/-! ## `GenerateMermaidWithHierarchy` (go-mermaid variant)

The external go-mermaid library renders exactly the nodes and links added
to the diagram, so the diagram's edge content is the sequence of
`addLink` calls; `mermaidEdges` is that sequence (deduplicated, in call
order), over node = event index. -/

/-- `event.ParentID != "" && event.ParentID != "0000000000000000"`. -/
def hasParentRef (e : TraceEvent) : Bool :=
  e.parentID ≠ "" && e.parentID ≠ "0000000000000000"

def eventAt (obj : TraceObject) (i : Nat) : TraceEvent :=
  obj.events.getD i default

/-- `spanIDToIndex`: last-wins map from SpanID to event index. -/
def spanIDToIndex (obj : TraceObject) (pid : String) : Option Nat :=
  ((List.range obj.events.length).filter
    (fun j => (eventAt obj j).spanID = pid)).getLast?

/-- `parentMap[pid]`: the event indices whose (non-sentinel) ParentID is
`pid`, in ascending order (the map appends them as the event loop runs,
so append order is ascending). -/
def childIdxsOf (obj : TraceObject) (pid : String) : List Nat :=
  (List.range obj.events.length).filter
    (fun j => hasParentRef (eventAt obj j) && (eventAt obj j).parentID = pid)

/-- `parentIndices`: the resolvable `parentMap` keys mapped to their event
index and sorted ascending (`sort.Ints`).  Distinct keys resolve to
distinct indices and a key resolving to `p` equals `p`'s own SpanID with
`p` last among its duplicates, so this ascending filter enumerates
exactly the Go result. -/
def parentIndices (obj : TraceObject) : List Nat :=
  (List.range obj.events.length).filter
    (fun p =>
      spanIDToIndex obj ((eventAt obj p).spanID) = some p &&
      !(childIdxsOf obj ((eventAt obj p).spanID)).isEmpty)

/-- `isWorkflowSequential`. -/
def isWorkflowSequential (e : TraceEvent) : Bool :=
  strContains (toLowerStr e.spanName) "workflow.sequential"

/-- `isWorkflowStep`: name contains "workflow.step", or a non-empty
string `agk.workflow.step_name` metadata entry. -/
def isWorkflowStep (e : TraceEvent) : Bool :=
  strContains (toLowerStr e.spanName) "workflow.step" ||
    (match lookupField e.metadata "agk.workflow.step_name" with
     | some (GoVal.str s) => s ≠ ""
     | _ => false)

/-- `strconv.Atoi`: optional sign followed by at least one digit,
consuming the whole string (overflow ignored; the engine's indices are
tiny). -/
def goAtoi (s : String) : Option Int :=
  let natOf : List Char → Option Nat := fun ds =>
    if ds.isEmpty ∨ ¬ ds.all isDigitCh then none
    else some (ds.foldl (fun a c => a * 10 + digitVal c) 0)
  match s.toList with
  | '+' :: ds => (natOf ds).map Int.ofNat
  | '-' :: ds => (natOf ds).map (fun n => -(n : Int))
  | ds => (natOf ds).map Int.ofNat

/-- `getStepIndex`: the `agk.workflow.step_index` metadata value as an
int when numeric or a parseable string; otherwise (and for a missing
key) fall back to the timestamp in milliseconds with `ok = false`.
`GoVal.num` covers Go's int/int64/float64/float32 cases. -/
def getStepIndex (e : TraceEvent) : Int × Bool :=
  let fallback : Int × Bool :=
    if e.timestamp ≠ goZeroTimeNanos then (e.timestamp.tdiv 1000000, false)
    else (0, false)
  match lookupField e.metadata "agk.workflow.step_index" with
  | some (GoVal.num v) => (v, true)
  | some (GoVal.str s) =>
      match goAtoi s with
      | some v => (v, true)
      | none => fallback
  | _ => fallback

/-- The `sort.Slice` comparator for step children: by step index when both
have one, indexed before unindexed, otherwise chronological. -/
def stepLess (obj : TraceObject) (i j : Nat) : Bool :=
  let pi := getStepIndex (eventAt obj i)
  let pj := getStepIndex (eventAt obj j)
  if pi.2 && pj.2 then pi.1 < pj.1
  else if pi.2 ≠ pj.2 then pi.2
  else (eventAt obj i).timestamp < (eventAt obj j).timestamp

/-- `sort.Slice` on step children (Go's sort is unstable and its tie
order unspecified; a merge sort on the induced non-strict order).  -/
def sortSteps (obj : TraceObject) (l : List Nat) : List Nat :=
  insertionSort (fun i j => !(stepLess obj j i)) l

/-- `sort.Slice` by timestamp for collected descendants. -/
def sortByTimestamp (obj : TraceObject) (l : List Nat) : List Nat :=
  insertionSort (fun i j => (eventAt obj i).timestamp ≤ (eventAt obj j).timestamp) l

/-- `sort.Ints`. -/
def sortInts (l : List Nat) : List Nat :=
  insertionSort (fun a b => a ≤ b) l

/-- `childrenBySpan[pid]`: the child SpanIDs, in event order. -/
def childSpanIDsOf (obj : TraceObject) (pid : String) : List String :=
  (childIdxsOf obj pid).map (fun j => (eventAt obj j).spanID)

/-- The BFS of `collectDescendantIndices`: pop, skip visited, collect
each child's index unless the child is a step/sequential node, enqueue
the child SpanID either way.  Fuel: every processed element is either
dropped (visited) or enqueues at most one list of children; with at most
`n` distinct SpanIDs and `n` children overall, `n*n + n + 1` steps cover
the whole traversal. -/
def collectDescAux (obj : TraceObject) :
    Nat → List String → List String → List Nat → List Nat
  | 0, _, _, acc => acc
  | _ + 1, [], _, acc => acc
  | fuel + 1, current :: rest, visited, acc =>
      if current ∈ visited then collectDescAux obj fuel rest visited acc
      else
        let visited := current :: visited
        let step :=
          (childSpanIDsOf obj current).foldl
            (fun (p : List String × List Nat) childSpan =>
              match spanIDToIndex obj childSpan with
              | some idx =>
                  if isWorkflowStep (eventAt obj idx) ||
                      isWorkflowSequential (eventAt obj idx) then
                    (p.1 ++ [childSpan], p.2)
                  else
                    (p.1 ++ [childSpan], p.2 ++ [idx])
              | none => (p.1 ++ [childSpan], p.2))
            ([], acc)
        collectDescAux obj fuel (rest ++ step.1) visited step.2

/-- `collectDescendantIndices`. -/
def collectDescendantIndices (obj : TraceObject) (rootSpanID : String) : List Nat :=
  collectDescAux obj (obj.events.length * obj.events.length + obj.events.length + 1)
    [rootSpanID] [] []

/-- `addLink`: append the edge unless it was already added. -/
def addLink (edges : List (Nat × Nat)) (e : Nat × Nat) : List (Nat × Nat) :=
  if e ∈ edges then edges else edges ++ [e]

/-- Link consecutive elements of a chain. -/
def linkChain (edges : List (Nat × Nat)) : List Nat → List (Nat × Nat)
  | [] => edges
  | [_] => edges
  | a :: b :: rest => linkChain (addLink edges (a, b)) (b :: rest)

/-- The edges drawn by one sequential parent in the special branch:
chain parent → step₁ → … → stepₙ, then hang each step's sorted non-step
descendants off it as a chain. -/
def seqParentEdges (obj : TraceObject) (edges : List (Nat × Nat))
    (parentIdx : Nat) : List (Nat × Nat) :=
  let children := childIdxsOf obj ((eventAt obj parentIdx).spanID)
  let stepChildren := sortSteps obj (children.filter (fun c => isWorkflowStep (eventAt obj c)))
  let edges :=
    match stepChildren with
    | [] => edges
    | s0 :: _ => linkChain (addLink edges (parentIdx, s0)) stepChildren
  stepChildren.foldl
    (fun edges stepIdx =>
      let descendants := collectDescendantIndices obj ((eventAt obj stepIdx).spanID)
      match sortByTimestamp obj descendants with
      | [] => edges
      | d0 :: ds => linkChain (addLink edges (stepIdx, d0)) (d0 :: ds))
    edges

/-- The edges drawn for one parent in the general loop (the sequential
sub-branch is dead when no sequential parent exists, but kept for
faithfulness). -/
def generalParentEdges (obj : TraceObject) (edges : List (Nat × Nat))
    (parentIdx : Nat) : List (Nat × Nat) :=
  let children := childIdxsOf obj ((eventAt obj parentIdx).spanID)
  if isWorkflowSequential (eventAt obj parentIdx) then
    let stepChildren := children.filter (fun c => isWorkflowStep (eventAt obj c))
    let otherChildren := children.filter (fun c => !(isWorkflowStep (eventAt obj c)))
    let edges :=
      match sortSteps obj stepChildren with
      | [] => edges
      | s0 :: rest => linkChain (addLink edges (parentIdx, s0)) (s0 :: rest)
    (sortInts otherChildren).foldl (fun edges c => addLink edges (parentIdx, c)) edges
  else
    (sortInts children).foldl (fun edges c => addLink edges (parentIdx, c)) edges

/-- The edge sequence of `GenerateMermaidWithHierarchy`: when any
sequential-workflow parent exists, only the sequential chains are drawn
and the function returns; otherwise every parent fans out to its
children through `addLink`. -/
def mermaidEdges (obj : TraceObject) : List (Nat × Nat) :=
  let pIdxs := parentIndices obj
  let seqParents := pIdxs.filter (fun p => isWorkflowSequential (eventAt obj p))
  if !seqParents.isEmpty then
    seqParents.foldl (seqParentEdges obj) []
  else
    pIdxs.foldl (generalParentEdges obj) []

end Audit
end AGK

namespace AGK
namespace Fixtures

/-! ## Concrete fixtures used by counterexamples and witnesses -/

open Tui Audit

/-- A minimal tui span. -/
def mkTuiSpan (name id pid code st : String) : Span :=
  { name := name, startTime := st, endTime := "",
    attributes := [], spanContext := ⟨"t", id⟩, parent := ⟨"t", pid⟩,
    spanKind := 0, status := ⟨code, ""⟩, childSpanCount := 0,
    instrumentationScope := [] }

/-- Two spans sharing one SpanID (C6). -/
def dupSpans : List Span :=
  [mkTuiSpan "a" "x" "" "" "", mkTuiSpan "b" "x" "" "" ""]

/-- A root with three children: X and Y tied at t=2s, Z at t=1s, in input
order X, Y, Z (C7). -/
def tieSpans : List Span :=
  [mkTuiSpan "P" "p" "" "" "1970-01-01T00:00:00Z",
   mkTuiSpan "X" "x" "p" "" "1970-01-01T00:00:02Z",
   mkTuiSpan "Y" "y" "p" "" "1970-01-01T00:00:02Z",
   mkTuiSpan "Z" "z" "p" "" "1970-01-01T00:00:01Z"]

/-- A plain root whose only child carries an error status (C1, C3). -/
def errRoot : Span := mkTuiSpan "R" "r" "" "" ""

def errChild : Span := mkTuiSpan "E" "e" "r" "Error" ""

def freshSpan : Span := mkTuiSpan "N" "n" "" "" ""

/-- The live viewer over root+error-child, offset 10. -/
def liveModel : TuiModel :=
  newTraceViewerWithPath [errRoot, errChild] 2 "trace.jsonl" (some 10)

/-- The same state after the user collapses the root. -/
def collapsedModel : TuiModel := handleTreeCollapse liveModel

/-- Two eligible (leaf) metric nodes with equal durations (C8). -/
def leafNodeA : MNode := ⟨mkTuiSpan "a" "na" "" "" "", 5, false⟩

def leafNodeB : MNode := ⟨mkTuiSpan "b" "nb" "" "" "", 5, false⟩

/-- A minimal audit event. -/
def mkEvt (name id pid : String) (meta : List (String × GoVal)) : TraceEvent :=
  { timestamp := 0, type := .thought, spanID := id, spanName := name,
    content := "", metadata := meta, durationMs := 0, parentID := pid }

def emptyTraceObject : TraceObject :=
  { runID := "", command := "", startTime := 0, endTime := 0,
    events := [], finalOutput := "", summary := ⟨0, 0, 0, 0, 0, 0, false⟩ }

/-- Scenario of C5: sequential root A, step children B and C with step
indices 0 and 1. -/
def seqScenario : TraceObject :=
  { emptyTraceObject with
      events :=
        [mkEvt "workflow.sequential" "a" "" [],
         mkEvt "workflow.step" "b" "a" [("agk.workflow.step_index", GoVal.num 0)],
         mkEvt "workflow.step" "c" "a" [("agk.workflow.step_index", GoVal.num 1)]] }

/-- C2 counterexample: a sequential container S with step child T next to
an unrelated resolved pair P → Q. -/
def mixedScenario : TraceObject :=
  { emptyTraceObject with
      events :=
        [mkEvt "workflow.sequential" "s" "" [],
         mkEvt "workflow.step" "t" "s" [],
         mkEvt "plainparent" "p" "" [],
         mkEvt "plainchild" "q" "p" []] }

/-- C4 failing input: a span whose `agk.prompt.user` attribute value is a
number, not a string. -/
def badPromptSpan : RawSpan :=
  { name := "x", spanContext := ⟨"t", "s1"⟩, parent := ⟨"t", ""⟩,
    startTime := "", endTime := "",
    attributes :=
      [[("Key", GoVal.str "agk.prompt.user"),
        ("Value", GoVal.obj [("Value", GoVal.num 42)])]],
    status := ⟨"", ""⟩ }

end Fixtures
end AGK

namespace AGK

/-! ## Claim theorems: concrete evaluations and counterexamples -/

/-- C1: the live-tail merge does *not* preserve the full known span set.
In the state `collapsedModel` (root "r" collapsed, its child "e" still in
the arena), handling a tick that delivers the single new span "n" yields
the span set ["r", "n"]: the child inside the collapsed subtree is lost,
because `collectAllSpans` walks only the visible flattened list.  The
claim (and the spec) require the result ["r", "e", "n"]. -/
theorem c1_collapsed_subtree_spans_dropped_on_merge :
    Fixtures.collapsedModel.spans.map (·.spanContext.spanID) = ["r", "e"] ∧
    (Tui.addNewSpans Fixtures.collapsedModel [Fixtures.freshSpan]).spans.map
        (·.spanContext.spanID) = ["r", "n"] := by
  decide

/-- C2 counterexample: in `mixedScenario` the pair 2 → 3 (events "p" and
"q") is a resolved parent-child pair involving no sequential-workflow
container, yet the generated edge list omits it, because the presence of
the sequential container "s" (with step child "t") makes the generator
emit only the sequential chains and return. -/
theorem c2_counterexample :
    Audit.hasParentRef (Audit.eventAt Fixtures.mixedScenario 3) = true ∧
    (Audit.eventAt Fixtures.mixedScenario 3).parentID =
      (Audit.eventAt Fixtures.mixedScenario 2).spanID ∧
    (2, 3) ∉ Audit.mermaidEdges Fixtures.mixedScenario := by
  decide

/-- C3 counterexample: in `collapsedModel` the forest contains an error
node (arena index 1, inside the collapsed root), `errorCount` is 1, yet
the jump-to-next-error command leaves the cursor on the non-error root:
the scan runs over the *visible* list only, so an error hidden in a
collapsed subtree is never found and no ancestor is force-expanded. -/
theorem c3_counterexample :
    Fixtures.collapsedModel.errorCount = 1 ∧
    (∃ i ∈ Tui.flattenFull Fixtures.collapsedModel.spans,
        Tui.isErrorIdx Fixtures.collapsedModel.spans i = true) ∧
    (Tui.jumpToNextError Fixtures.collapsedModel).cursor = 0 ∧
    Tui.isErrorIdx Fixtures.collapsedModel.spans
        ((Tui.jumpToNextError Fixtures.collapsedModel).visibleNodes.getD
          (Tui.jumpToNextError Fixtures.collapsedModel).cursor 0) = false := by
  decide

/-- C4: content extraction does *not* return a TraceEvent for every
parsed span: a span whose `agk.prompt.user` attribute value is the
number 42 drives the unchecked `val.(string)` type assertion of
`spanToEvent` into a run-time panic. -/
theorem c4_nonstring_prompt_panics :
    Audit.spanToEvent Fixtures.badPromptSpan =
      .error ⟨"interface conversion: interface is not string"⟩ := by
  rfl

/-- C5: for root A ("workflow.sequential", no parent) with children B and
C ("workflow.step", step_index 0 and 1), the diagram contains edges
A → B and B → C and does not contain edge A → C. -/
theorem c5_sequential_linearization :
    (0, 1) ∈ Audit.mermaidEdges Fixtures.seqScenario ∧
    (1, 2) ∈ Audit.mermaidEdges Fixtures.seqScenario ∧
    (0, 2) ∉ Audit.mermaidEdges Fixtures.seqScenario := by
  decide

/-- C6 counterexample: two input spans sharing one SpanID build a forest
whose full flatten has one entry, not two — the later span silently
shadows the earlier one in the SpanID index, refuting the claimed count
equality "including inputs with duplicate SpanIDs". -/
theorem c6_counterexample :
    Fixtures.dupSpans.length = 2 ∧
    (Tui.flattenFull Fixtures.dupSpans).length = 1 := by
  decide

/-- C7 counterexample: in `tieSpans` the siblings X (arena 1) and Y
(arena 2) carry equal parsed start times and appear in input order X
before Y, yet the built children list of the root is [3, 2, 1] — Y before
X: the exchange sort is not stable, so tied siblings do not keep their
original relative order.  (Sibling attach order is the canonical
first-insertion order of the span-id map; Go's map iteration order is
unspecified, so the claimed order preservation is not guaranteed under
any reading.) -/
theorem c7_counterexample :
    Tui.startKey Fixtures.tieSpans 1 = Tui.startKey Fixtures.tieSpans 2 ∧
    Tui.builtChildren Fixtures.tieSpans 0 = [3, 2, 1] := by
  decide

/-- C8 counterexample: two eligible leaf nodes with equal durations both
enter the top-3 list, which is then [5, 5] — descending, but not
*strictly* descending as claimed. -/
theorem c8_counterexample :
    ((Tui.calculateMetrics [Fixtures.leafNodeA, Fixtures.leafNodeB]).top3.map
        (·.durationMs)) = [5, 5] ∧
    ¬ List.Pairwise (fun a b => b < a)
        ((Tui.calculateMetrics [Fixtures.leafNodeA, Fixtures.leafNodeB]).top3.map
          (·.durationMs)) := by
  decide

end AGK

namespace AGK
namespace Tui

/-! ## Helper lemmas: live-tail bookkeeping -/

theorem addNewSpans_lastOffset (m : TuiModel) (l : List Span) :
    (addNewSpans m l).lastOffset = m.lastOffset := rfl

theorem addNewSpans_isLive (m : TuiModel) (l : List Span) :
    (addNewSpans m l).isLive = m.isLive := rfl

theorem addNewSpans_tracePath (m : TuiModel) (l : List Span) :
    (addNewSpans m l).tracePath = m.tracePath := rfl

end Tui

/-- C9: polling when the file size is not greater than the remembered
offset returns zero new spans and leaves the model (offset, span arena,
forest, metrics) unchanged; and handling two consecutive ticks against
the same file state equals handling one (the first poll either changes
nothing or advances the offset to the file size, making the second poll
a no-op). -/
theorem c9_poll_no_growth_noop_and_idempotent
    (decode : String → Option Tui.Span) (fs : Tui.FileState) (m : Tui.TuiModel) :
    (∀ sz, fs.statSize = some sz → sz ≤ m.lastOffset →
        Tui.checkFileUpdates decode fs m = ([], m) ∧
        Tui.tickStep decode fs m = m) ∧
    Tui.tickStep decode fs (Tui.tickStep decode fs m) = Tui.tickStep decode fs m := by
  have hnoop : ∀ (mm : Tui.TuiModel) sz, fs.statSize = some sz → sz ≤ mm.lastOffset →
      Tui.checkFileUpdates decode fs mm = ([], mm) := by
    intro mm sz hstat hle
    simp [Tui.checkFileUpdates, hstat, hle]
  have htick_of_noop : ∀ (mm : Tui.TuiModel),
      Tui.checkFileUpdates decode fs mm = ([], mm) → Tui.tickStep decode fs mm = mm := by
    intro mm hchk
    simp [Tui.tickStep, hchk]
  constructor
  · intro sz hstat hle
    exact ⟨hnoop m sz hstat hle, htick_of_noop m (hnoop m sz hstat hle)⟩
  · by_cases hlive : m.isLive ∧ m.tracePath ≠ ""
    · match hstat : fs.statSize with
      | none =>
          have hchk : Tui.checkFileUpdates decode fs m = ([], m) := by
            simp [Tui.checkFileUpdates, hstat]
          have h1 := htick_of_noop m hchk
          rw [h1]; exact h1
      | some sz =>
          by_cases hle : sz ≤ m.lastOffset
          · have h1 := htick_of_noop m (hnoop m sz hstat hle)
            rw [h1]; exact h1
          · match hcont : fs.content with
            | none =>
                have hchk : Tui.checkFileUpdates decode fs m = ([], m) := by
                  simp [Tui.checkFileUpdates, hstat, hcont, hle]
                have h1 := htick_of_noop m hchk
                rw [h1]; exact h1
            | some content =>
                have hoff : (Tui.tickStep decode fs m).lastOffset = sz := by
                  simp only [Tui.tickStep, Tui.checkFileUpdates, hstat, hcont, if_neg hle,
                    if_pos hlive]
                  split
                  · simp
                  · split
                    · simp [Tui.addNewSpans_lastOffset]
                    · simp
                have hchk2 : Tui.checkFileUpdates decode fs (Tui.tickStep decode fs m) =
                    ([], Tui.tickStep decode fs m) :=
                  hnoop _ sz hstat (by rw [hoff])
                exact htick_of_noop _ hchk2
    · have h1 : Tui.tickStep decode fs m = m := by
        simp only [Tui.tickStep, if_neg hlive]
      rw [h1]; exact h1

/-- C9 witness: the no-growth hypotheses hold at file size 10 against
`liveModel` (offset 10), and the poll is indeed a no-op there. -/
theorem c9_witness :
    Tui.checkFileUpdates (fun _ => none) ⟨some 10, some "x"⟩ Fixtures.liveModel =
      ([], Fixtures.liveModel) ∧
    Tui.tickStep (fun _ => none) ⟨some 10, some "x"⟩ Fixtures.liveModel =
      Fixtures.liveModel :=
  (c9_poll_no_growth_noop_and_idempotent (fun _ => none) ⟨some 10, some "x"⟩
    Fixtures.liveModel).1 10 rfl (by decide)

end AGK

namespace AGK

/-! ## Helper lemmas: insertion sort permutes -/

theorem insertLE_perm {α : Type} (le : α → α → Bool) (x : α) :
    ∀ l : List α, List.Perm (insertLE le x l) (x :: l) := by
  intro l
  induction l with
  | nil => simp [insertLE]
  | cons y ys ih =>
      simp only [insertLE]
      split
      · exact List.Perm.refl _
      · exact List.Perm.trans (List.Perm.cons y ih) (List.Perm.swap x y ys)

theorem insertionSort_perm {α : Type} (le : α → α → Bool) :
    ∀ l : List α, List.Perm (insertionSort le l) l := by
  intro l
  induction l with
  | nil => exact List.Perm.refl _
  | cons x xs ih =>
      simp only [insertionSort]
      exact List.Perm.trans (insertLE_perm le x _) (List.Perm.cons x ih)

namespace Audit

/-! ## Helper lemmas: the classifier and the attribute loop -/

theorem applyAttr_type (e : TraceEvent) (attr : List (String × GoVal)) (e' : TraceEvent)
    (h : applyAttr e attr = .ok e') : e'.type = e.type := by
  unfold applyAttr at h
  dsimp only at h
  repeat' split at h
  all_goals first
    | (injection h with h2; subst h2; rfl)
    | exact Except.noConfusion h

theorem classifySpan_ne_observation (name : String) :
    classifySpan name ≠ .observation := by
  intro h
  unfold classifySpan at h
  dsimp only at h
  repeat' split at h
  all_goals exact EventType.noConfusion h

theorem applyAttr_eq_noToolResult (e : TraceEvent) (attr : List (String × GoVal))
    (h : e.type ≠ .observation) :
    applyAttr e attr = applyAttrNoToolResult e attr := by
  unfold applyAttr applyAttrNoToolResult
  dsimp only
  repeat' split
  all_goals simp_all

theorem foldlM_applyAttr_type :
    ∀ (attrs : List (List (String × GoVal))) (e e' : TraceEvent),
      attrs.foldlM applyAttr e = .ok e' → e'.type = e.type := by
  intro attrs
  induction attrs with
  | nil => intro e e' h; cases h; rfl
  | cons a rest ih =>
      intro e e' h
      simp only [List.foldlM_cons] at h
      match h1 : applyAttr e a with
      | .error p => rw [h1] at h; exact Except.noConfusion h
      | .ok e1 =>
          rw [h1] at h
          have := ih e1 e' h
          rw [this, applyAttr_type e a e1 h1]

theorem spanToEvent_type (s : RawSpan) (e : TraceEvent)
    (h : spanToEvent s = .ok e) : e.type = classifySpan s.name := by
  unfold spanToEvent at h
  exact foldlM_applyAttr_type s.attributes _ e h

theorem foldlM_applyAttr_eq_noToolResult :
    ∀ (attrs : List (List (String × GoVal))) (e : TraceEvent),
      e.type ≠ .observation →
      attrs.foldlM applyAttr e = attrs.foldlM applyAttrNoToolResult e := by
  intro attrs
  induction attrs with
  | nil => intro e h; rfl
  | cons a rest ih =>
      intro e h
      simp only [List.foldlM_cons]
      rw [← applyAttr_eq_noToolResult e a h]
      match h1 : applyAttr e a with
      | .error p => rfl
      | .ok e1 =>
          exact ih e1 (by rw [applyAttr_type e a e1 h1]; exact h)

theorem spanToEvent_eq_noToolResult (s : RawSpan) :
    spanToEvent s = spanToEventNoToolResult s := by
  unfold spanToEvent spanToEventNoToolResult
  exact foldlM_applyAttr_eq_noToolResult s.attributes _
    (classifySpan_ne_observation s.name)

/-! ## Helper lemmas: the Collect loop -/

theorem collectStep_events (obj : TraceObject) (e : TraceEvent) :
    (collectStep obj e).events = obj.events ++ [e] := by
  unfold collectStep
  dsimp only
  repeat' split
  all_goals rfl

theorem collectStep_thought (obj : TraceObject) (e : TraceEvent) :
    (collectStep obj e).summary.thoughtCount =
      obj.summary.thoughtCount + (if e.type = .thought then 1 else 0) := by
  unfold collectStep
  dsimp only
  repeat' split
  all_goals simp_all

theorem collectStep_toolCall (obj : TraceObject) (e : TraceEvent) :
    (collectStep obj e).summary.toolCallCount =
      obj.summary.toolCallCount + (if e.type = .toolCall then 1 else 0) := by
  unfold collectStep
  dsimp only
  repeat' split
  all_goals simp_all

theorem collectStep_llmCall (obj : TraceObject) (e : TraceEvent) :
    (collectStep obj e).summary.llmCallCount =
      obj.summary.llmCallCount + (if e.type = .llmCall then 1 else 0) := by
  unfold collectStep
  dsimp only
  repeat' split
  all_goals simp_all

theorem collectLoop_spec :
    ∀ (spans : List RawSpan) (obj₀ obj : TraceObject),
      collectLoop spans obj₀ = .ok obj →
      ∃ es : List TraceEvent,
        obj.events = obj₀.events ++ es ∧
        (∀ e ∈ es, ∃ s ∈ spans, spanToEvent s = .ok e) ∧
        obj.summary.thoughtCount = obj₀.summary.thoughtCount +
          es.countP (fun e => e.type == EventType.thought) ∧
        obj.summary.toolCallCount = obj₀.summary.toolCallCount +
          es.countP (fun e => e.type == EventType.toolCall) ∧
        obj.summary.llmCallCount = obj₀.summary.llmCallCount +
          es.countP (fun e => e.type == EventType.llmCall) := by
  intro spans
  induction spans with
  | nil =>
      intro obj₀ obj h
      cases h
      exact ⟨[], by simp, by simp, by simp, by simp, by simp⟩
  | cons s rest ih =>
      intro obj₀ obj h
      unfold collectLoop at h
      match h1 : spanToEvent s with
      | .error p =>
          rw [h1] at h
          exact Except.noConfusion h
      | .ok e =>
          rw [h1] at h
          obtain ⟨es, hev, hmem, hth, htc, hllm⟩ := ih (collectStep obj₀ e) obj h
          refine ⟨e :: es, ?_, ?_, ?_, ?_, ?_⟩
          · rw [hev, collectStep_events]; simp
          · intro e' he'
            rcases List.mem_cons.mp he' with rfl | htail
            · exact ⟨s, List.mem_cons_self s rest, h1⟩
            · obtain ⟨s', hs', hok⟩ := hmem e' htail
              exact ⟨s', List.mem_cons_of_mem s hs', hok⟩
          · rw [hth, collectStep_thought]
            simp only [List.countP_cons, beq_iff_eq]
            by_cases hcase : e.type = EventType.thought <;> simp [hcase] <;> omega
          · rw [htc, collectStep_toolCall]
            simp only [List.countP_cons, beq_iff_eq]
            by_cases hcase : e.type = EventType.toolCall <;> simp [hcase] <;> omega
          · rw [hllm, collectStep_llmCall]
            simp only [List.countP_cons, beq_iff_eq]
            by_cases hcase : e.type = EventType.llmCall <;> simp [hcase] <;> omega

theorem countP_types_partition :
    ∀ (l : List TraceEvent), (∀ e ∈ l, e.type ≠ .observation) →
      l.countP (fun e => e.type == EventType.thought) +
        l.countP (fun e => e.type == EventType.toolCall) +
        l.countP (fun e => e.type == EventType.llmCall) +
        l.countP (fun e => e.type == EventType.decision) = l.length := by
  intro l
  induction l with
  | nil => intro _; simp
  | cons e rest ih =>
      intro h
      have hrest := ih (fun x hx => h x (List.mem_cons_of_mem _ hx))
      have he := h e (List.mem_cons_self _ _)
      simp only [List.countP_cons, List.length_cons, beq_iff_eq]
      cases htype : e.type <;> simp_all <;> omega

theorem collect_ok_parts (runID : String) (spans : List RawSpan) (obj : TraceObject)
    (h : collect runID spans = .ok obj) :
    ∃ es : List TraceEvent,
      List.Perm obj.events es ∧
      (∀ e ∈ es, ∃ s ∈ spans, spanToEvent s = .ok e) ∧
      obj.summary.totalEvents = es.length ∧
      obj.summary.thoughtCount = es.countP (fun e => e.type == EventType.thought) ∧
      obj.summary.toolCallCount = es.countP (fun e => e.type == EventType.toolCall) ∧
      obj.summary.llmCallCount = es.countP (fun e => e.type == EventType.llmCall) := by
  unfold collect at h
  dsimp only at h
  match h1 : collectLoop spans
      { runID := runID, command := "", startTime := goZeroTimeNanos,
        endTime := goZeroTimeNanos, events := [], finalOutput := "",
        summary := ⟨0, 0, 0, 0, 0, 0, false⟩ } with
  | .error p => rw [h1] at h; exact Except.noConfusion h
  | .ok obj₁ =>
      rw [h1] at h
      obtain ⟨es, hev, hmem, hth, htc, hllm⟩ := collectLoop_spec spans _ obj₁ h1
      simp only [List.nil_append] at hev
      injection h with h2
      subst h2
      refine ⟨es, ?_, hmem, ?_, ?_, ?_, ?_⟩
      · simpa [← hev] using insertionSort_perm
          (fun a b : TraceEvent => a.timestamp ≤ b.timestamp) obj₁.events
      · simpa [hev] using rfl
      · simpa [hev] using hth
      · simpa [hev] using htc
      · simpa [hev] using hllm

end Audit

instance : Inhabited Audit.TraceObject :=
  ⟨⟨"", "", 0, 0, [], "", ⟨0, 0, 0, 0, 0, 0, false⟩⟩⟩

namespace Fixtures

/-- A well-behaved audit span (string-valued prompt). -/
def simpleAuditSpan : Audit.RawSpan :=
  { name := "workflow.run", spanContext := ⟨"t", "w1"⟩, parent := ⟨"t", ""⟩,
    startTime := "1970-01-01T00:00:01Z", endTime := "1970-01-01T00:00:02Z",
    attributes := [[("Key", GoVal.str "agk.prompt.user"),
                    ("Value", GoVal.obj [("Value", GoVal.str "hi")])]],
    status := ⟨"", ""⟩ }

/-- The trace object collected from `simpleAuditSpan`. -/
def collectedObj : Audit.TraceObject :=
  match Audit.collect "run" [simpleAuditSpan] with
  | .ok o => o
  | .error _ => default

end Fixtures

/-- C10: the classifier never returns `observation` (only tool_call,
llm_call, thought, decision); consequently the `agk.tool.result` content
rule is dead code (`spanToEvent` equals its variant with that rule
removed, panics included); and in a collected TraceObject the per-type
counters count exactly the thought/tool_call/llm_call events while
decision events are counted only in TotalEvents. -/
theorem c10_classifier_and_counters :
    (∀ name, Audit.classifySpan name ≠ Audit.EventType.observation) ∧
    (∀ s, Audit.spanToEvent s = Audit.spanToEventNoToolResult s) ∧
    (∀ runID spans obj, Audit.collect runID spans = .ok obj →
        (∀ e ∈ obj.events, e.type ≠ Audit.EventType.observation) ∧
        obj.summary.totalEvents = obj.events.length ∧
        obj.summary.thoughtCount =
          obj.events.countP (fun e => e.type == Audit.EventType.thought) ∧
        obj.summary.toolCallCount =
          obj.events.countP (fun e => e.type == Audit.EventType.toolCall) ∧
        obj.summary.llmCallCount =
          obj.events.countP (fun e => e.type == Audit.EventType.llmCall) ∧
        obj.summary.thoughtCount + obj.summary.toolCallCount +
          obj.summary.llmCallCount +
          obj.events.countP (fun e => e.type == Audit.EventType.decision) =
          obj.summary.totalEvents) := by
  refine ⟨Audit.classifySpan_ne_observation, Audit.spanToEvent_eq_noToolResult, ?_⟩
  intro runID spans obj h
  obtain ⟨es, hperm, hmem, htot, hth, htc, hllm⟩ := Audit.collect_ok_parts runID spans obj h
  have hesobs : ∀ e ∈ es, e.type ≠ Audit.EventType.observation := by
    intro e he
    obtain ⟨s, _, hok⟩ := hmem e he
    rw [Audit.spanToEvent_type s e hok]
    exact Audit.classifySpan_ne_observation s.name
  have hobs : ∀ e ∈ obj.events, e.type ≠ Audit.EventType.observation := by
    intro e he
    exact hesobs e (hperm.mem_iff.mp he)
  have hlen : obj.events.length = es.length := hperm.length_eq
  have hcount : ∀ p : Audit.TraceEvent → Bool,
      obj.events.countP p = es.countP p := fun p => hperm.countP_eq p
  refine ⟨hobs, by rw [htot, hlen], by rw [hth, hcount], by rw [htc, hcount],
    by rw [hllm, hcount], ?_⟩
  rw [hth, htc, hllm, htot, hcount]
  exact Audit.countP_types_partition es hesobs

/-- C10 witness: the collect hypothesis discharged on a concrete one-span
trace. -/
theorem c10_witness :
    (∀ e ∈ Fixtures.collectedObj.events, e.type ≠ Audit.EventType.observation) ∧
    Fixtures.collectedObj.summary.totalEvents = Fixtures.collectedObj.events.length ∧
    Fixtures.collectedObj.summary.thoughtCount =
      Fixtures.collectedObj.events.countP (fun e => e.type == Audit.EventType.thought) ∧
    Fixtures.collectedObj.summary.toolCallCount =
      Fixtures.collectedObj.events.countP (fun e => e.type == Audit.EventType.toolCall) ∧
    Fixtures.collectedObj.summary.llmCallCount =
      Fixtures.collectedObj.events.countP (fun e => e.type == Audit.EventType.llmCall) ∧
    Fixtures.collectedObj.summary.thoughtCount +
      Fixtures.collectedObj.summary.toolCallCount +
      Fixtures.collectedObj.summary.llmCallCount +
      Fixtures.collectedObj.events.countP (fun e => e.type == Audit.EventType.decision) =
      Fixtures.collectedObj.summary.totalEvents :=
  c10_classifier_and_counters.2.2 "run" [Fixtures.simpleAuditSpan]
    Fixtures.collectedObj rfl

end AGK
namespace AGK
namespace Tui

theorem top3Insert_none (y : MNode) :
    ∀ l, top3Insert y l = none → ∀ x ∈ l, y.durationMs ≤ x.durationMs := by
  intro l
  induction l with
  | nil => intro _ x hx; cases hx
  | cons s rest ih =>
      intro h x hx
      unfold top3Insert at h
      split at h
      · exact Option.noConfusion h
      · rcases List.mem_cons.mp hx with rfl | htail
        · omega
        · match h2 : top3Insert y rest with
          | some l'' => rw [h2] at h; exact Option.noConfusion h
          | none => exact ih h2 x htail

theorem top3Insert_some (y : MNode) :
    ∀ l l', top3Insert y l = some l' →
      List.Pairwise (fun a b => b.durationMs ≤ a.durationMs) l →
      (∀ x ∈ l', x = y ∨ x ∈ l) ∧
      List.Pairwise (fun a b => b.durationMs ≤ a.durationMs) l' ∧
      l'.length = l.length + 1 := by
  intro l
  induction l with
  | nil => intro l' h; exact Option.noConfusion h
  | cons s rest ih =>
      intro l' h hpw
      unfold top3Insert at h
      split at h
      · -- inserted in front: l' = y :: s :: rest
        injection h with h2
        subst h2
        have hpw' : List.Pairwise (fun a b => b.durationMs ≤ a.durationMs) (s :: rest) := hpw
        refine ⟨?_, ?_, by simp⟩
        · intro x hx
          rcases List.mem_cons.mp hx with rfl | hx2
          · exact Or.inl rfl
          · exact Or.inr hx2
        · refine List.Pairwise.cons ?_ hpw'
          intro b hb
          rcases List.mem_cons.mp hb with rfl | hb2
          · omega
          · have := (List.pairwise_cons.mp hpw).1 b hb2
            omega
      · -- not in front: recurse
        match h2 : top3Insert y rest with
        | none => rw [h2] at h; exact Option.noConfusion h
        | some l'' =>
            rw [h2] at h
            injection h with h3
            subst h3
            have hpwrest := (List.pairwise_cons.mp hpw).2
            have hs := (List.pairwise_cons.mp hpw).1
            obtain ⟨hmem, hpw'', hlen⟩ := ih l'' h2 hpwrest
            refine ⟨?_, ?_, by simp [hlen]⟩
            · intro x hx
              rcases List.mem_cons.mp hx with rfl | hx2
              · exact Or.inr (List.mem_cons_self _ _)
              · rcases hmem x hx2 with rfl | hx3
                · exact Or.inl rfl
                · exact Or.inr (List.mem_cons_of_mem _ hx3)
            · refine List.Pairwise.cons ?_ hpw''
              intro b hb
              rcases hmem b hb with rfl | hb2
              · omega
              · exact hs b hb2

theorem updateTop3_spec (y : MNode) (top3 : List MNode)
    (hlen : top3.length ≤ 3)
    (hpw : List.Pairwise (fun a b => b.durationMs ≤ a.durationMs) top3) :
    (updateTop3 y top3).length ≤ 3 ∧
    List.Pairwise (fun a b => b.durationMs ≤ a.durationMs) (updateTop3 y top3) ∧
    (∀ x ∈ updateTop3 y top3, x = y ∨ x ∈ top3) := by
  unfold updateTop3
  dsimp only
  match h1 : top3Insert y top3 with
  | some l' =>
      obtain ⟨hmem, hpw', hlen'⟩ := top3Insert_some y top3 l' h1 hpw
      dsimp only
      split
      · refine ⟨?_, hpw'.sublist (List.take_sublist 3 l'),
          fun x hx => hmem x (List.mem_of_mem_take hx)⟩
        simp [List.length_take]
      · exact ⟨by omega, hpw', hmem⟩
  | none =>
      have hge := top3Insert_none y top3 h1
      dsimp only
      by_cases hlt : top3.length < 3
      · simp only [if_pos hlt]
        rw [if_neg (by simp only [List.length_append, List.length_cons,
          List.length_nil]; omega)]
        refine ⟨by simp only [List.length_append, List.length_cons,
          List.length_nil]; omega, ?_, ?_⟩
        · refine List.pairwise_append.mpr ⟨hpw, by simp, ?_⟩
          intro a ha b hb
          simp at hb
          subst hb
          exact hge a ha
        · intro x hx
          rcases List.mem_append.mp hx with hx1 | hx2
          · exact Or.inr hx1
          · simp at hx2; subst hx2; exact Or.inl rfl
      · simp only [if_neg hlt]
        rw [if_neg (by omega)]
        exact ⟨hlen, hpw, fun x hx => Or.inr hx⟩

end Tui
end AGK
namespace AGK
namespace Tui

theorem processNode_top3 (acc : MetricsAcc) (y : MNode) :
    (processNode acc y).top3 =
      if eligibleBottleneck y then updateTop3 y acc.top3 else acc.top3 := by
  unfold processNode
  dsimp only
  repeat' split
  all_goals simp_all

theorem processNode_slowest (acc : MetricsAcc) (y : MNode) :
    (processNode acc y).slowest =
      if eligibleBottleneck y then
        match acc.slowest with
        | none => some y
        | some s => if s.durationMs < y.durationMs then some y else some s
      else acc.slowest := by
  unfold processNode
  dsimp only
  repeat' split
  all_goals (try simp_all)
  all_goals omega

theorem calculateMetrics_fold_inv :
    ∀ (nodes processed : List MNode) (acc : MetricsAcc),
      acc.top3.length ≤ 3 →
      List.Pairwise (fun a b => b.durationMs ≤ a.durationMs) acc.top3 →
      (∀ x ∈ acc.top3, eligibleBottleneck x = true ∧ x ∈ processed) →
      (∀ s, acc.slowest = some s → s ∈ processed ∧ eligibleBottleneck s = true ∧
          ∀ x ∈ processed, eligibleBottleneck x = true → x.durationMs ≤ s.durationMs) →
      (acc.slowest = none → ∀ x ∈ processed, eligibleBottleneck x = false) →
      ((nodes.foldl processNode acc).top3.length ≤ 3 ∧
       List.Pairwise (fun a b => b.durationMs ≤ a.durationMs)
         (nodes.foldl processNode acc).top3 ∧
       (∀ x ∈ (nodes.foldl processNode acc).top3,
           eligibleBottleneck x = true ∧ x ∈ processed ++ nodes) ∧
       (∀ s, (nodes.foldl processNode acc).slowest = some s →
           s ∈ processed ++ nodes ∧ eligibleBottleneck s = true ∧
           ∀ x ∈ processed ++ nodes, eligibleBottleneck x = true →
             x.durationMs ≤ s.durationMs) ∧
       ((nodes.foldl processNode acc).slowest = none →
           ∀ x ∈ processed ++ nodes, eligibleBottleneck x = false)) := by
  intro nodes
  induction nodes with
  | nil =>
      intro processed acc h1 h2 h3 h4 h5
      simpa using ⟨h1, h2, h3, h4, h5⟩
  | cons y rest ih =>
      intro processed acc h1 h2 h3 h4 h5
      simp only [List.foldl_cons]
      have hmain := ih (processed ++ [y]) (processNode acc y) ?_ ?_ ?_ ?_ ?_
      · simpa [List.append_assoc] using hmain
      · -- length
        rw [processNode_top3]
        split
        · exact (updateTop3_spec y acc.top3 h1 h2).1
        · exact h1
      · -- pairwise
        rw [processNode_top3]
        split
        · exact (updateTop3_spec y acc.top3 h1 h2).2.1
        · exact h2
      · -- membership and eligibility
        rw [processNode_top3]
        split
        · rename_i helig
          intro x hx
          rcases (updateTop3_spec y acc.top3 h1 h2).2.2 x hx with rfl | hx2
          · exact ⟨helig, by simp⟩
          · obtain ⟨he, hp⟩ := h3 x hx2
            exact ⟨he, by simp [hp]⟩
        · intro x hx
          obtain ⟨he, hp⟩ := h3 x hx
          exact ⟨he, by simp [hp]⟩
      · -- slowest dominance
        rw [processNode_slowest]
        split
        · rename_i helig
          match hs : acc.slowest with
          | none =>
              dsimp only
              intro s hss
              injection hss with hss2
              subst hss2
              refine ⟨by simp, helig, ?_⟩
              intro x hx hex
              rcases List.mem_append.mp hx with hx1 | hx2
              · exact absurd hex (by simp [h5 hs x hx1])
              · simp at hx2; subst hx2; omega
          | some s0 =>
              dsimp only
              obtain ⟨hs0mem, hs0e, hs0dom⟩ := h4 s0 hs
              split
              · rename_i hlt
                intro s hss
                injection hss with hss2
                subst hss2
                refine ⟨by simp, helig, ?_⟩
                intro x hx hex
                rcases List.mem_append.mp hx with hx1 | hx2
                · have := hs0dom x hx1 hex
                  omega
                · simp at hx2; subst hx2; omega
              · rename_i hnlt
                intro s hss
                injection hss with hss2
                subst hss2
                refine ⟨by simp [hs0mem], hs0e, ?_⟩
                intro x hx hex
                rcases List.mem_append.mp hx with hx1 | hx2
                · exact hs0dom x hx1 hex
                · simp at hx2; subst hx2; omega
        · rename_i hnelig
          intro s hss
          obtain ⟨hsm, hse, hsd⟩ := h4 s hss
          refine ⟨by simp [hsm], hse, ?_⟩
          intro x hx hex
          rcases List.mem_append.mp hx with hx1 | hx2
          · exact hsd x hx1 hex
          · simp at hx2; subst hx2
            exact absurd hex (by simp [hnelig])
      · -- slowest none
        rw [processNode_slowest]
        split
        · rename_i helig
          match hs : acc.slowest with
          | none =>
              dsimp only
              intro h
              exact Option.noConfusion h
          | some s0 =>
              dsimp only
              split
              · intro h; exact Option.noConfusion h
              · intro h; exact Option.noConfusion h
        · rename_i hnelig
          intro hnone x hx
          rcases List.mem_append.mp hx with hx1 | hx2
          · exact h5 hnone x hx1
          · simp at hx2; subst hx2
            simpa using hnelig

end Tui
end AGK
namespace AGK

/-- C8 (amended): for every node set, the top-3 slowest list is sorted
descending by DurationMs (non-strictly: ties are kept, which is what the
counterexample forces), has length at most 3, and every member is
eligible (leaf, or name contains "llm" case-insensitively) and comes from
the processed set; `slowest` is a maximum-duration member of the same
eligible set. -/
theorem c8_top3_and_slowest_invariants (nodes : List Tui.MNode) :
    (Tui.calculateMetrics nodes).top3.length ≤ 3 ∧
    List.Pairwise (fun a b => b.durationMs ≤ a.durationMs)
      (Tui.calculateMetrics nodes).top3 ∧
    (∀ x ∈ (Tui.calculateMetrics nodes).top3,
        Tui.eligibleBottleneck x = true ∧ x ∈ nodes) ∧
    (∀ s, (Tui.calculateMetrics nodes).slowest = some s →
        s ∈ nodes ∧ Tui.eligibleBottleneck s = true ∧
        ∀ x ∈ nodes, Tui.eligibleBottleneck x = true →
          x.durationMs ≤ s.durationMs) := by
  have h := Tui.calculateMetrics_fold_inv nodes [] ⟨0, 0, none, []⟩
    (by simp) (by simp) (by simp) (by simp) (by simp)
  simp only [List.nil_append] at h
  exact ⟨h.1, h.2.1, h.2.2.1, h.2.2.2.1⟩

/-- C8 witness: the membership/eligibility implications discharged on a
concrete two-node set. -/
theorem c8_witness :
    Tui.eligibleBottleneck Fixtures.leafNodeA = true ∧
    Fixtures.leafNodeA ∈ [Fixtures.leafNodeA, Fixtures.leafNodeB] :=
  (c8_top3_and_slowest_invariants [Fixtures.leafNodeA, Fixtures.leafNodeB]).2.2.1 Fixtures.leafNodeA
    (by rw [show (Tui.calculateMetrics [Fixtures.leafNodeA, Fixtures.leafNodeB]).top3 =
          [Fixtures.leafNodeA, Fixtures.leafNodeB] from rfl]
        exact List.mem_cons_self _ _)

end AGK
namespace AGK
namespace Tui

theorem exchPass_min {α : Type} (κ : α → Int) :
    ∀ (l : List α) (x : α),
      κ (exchPass (fun a b => decide (κ b < κ a)) x l).1 ≤ κ x ∧
      (∀ z ∈ (exchPass (fun a b => decide (κ b < κ a)) x l).2,
          κ (exchPass (fun a b => decide (κ b < κ a)) x l).1 ≤ κ z) ∧
      List.Perm
        ((exchPass (fun a b => decide (κ b < κ a)) x l).1 ::
          (exchPass (fun a b => decide (κ b < κ a)) x l).2)
        (x :: l) := by
  intro l
  induction l with
  | nil =>
      intro x
      exact ⟨le_refl _, by simp [exchPass], by simp [exchPass]⟩
  | cons y ys ih =>
      intro x
      simp only [exchPass]
      split
      · rename_i hcond
        have hgt : κ y < κ x := by simpa using hcond
        dsimp only
        obtain ⟨h1, h2, h3⟩ := ih y
        refine ⟨by omega, ?_, ?_⟩
        · intro z hz
          rcases List.mem_cons.mp hz with rfl | hz2
          · omega
          · exact h2 z hz2
        · exact List.Perm.trans (List.Perm.swap x _ _)
            (List.Perm.cons x h3)
      · rename_i hcond
        have hgt : κ x ≤ κ y := by simpa using hcond
        dsimp only
        obtain ⟨h1, h2, h3⟩ := ih x
        refine ⟨h1, ?_, ?_⟩
        · intro z hz
          rcases List.mem_cons.mp hz with rfl | hz2
          · omega
          · exact h2 z hz2
        · exact List.Perm.trans (List.Perm.swap y _ _)
            (List.Perm.trans (List.Perm.cons y h3) (List.Perm.swap x y ys))
  
theorem exchSort_sorted_perm {α : Type} (κ : α → Int) :
    ∀ (n : Nat) (l : List α), l.length ≤ n →
      List.Pairwise (fun a b => κ a ≤ κ b)
        (exchSort (fun a b => decide (κ b < κ a)) l) ∧
      List.Perm (exchSort (fun a b => decide (κ b < κ a)) l) l := by
  intro n
  induction n with
  | zero =>
      intro l hl
      have : l = [] := List.eq_nil_of_length_eq_zero (Nat.le_zero.mp hl)
      subst this
      exact ⟨List.Pairwise.nil, List.Perm.refl _⟩
  | succ n ih =>
      intro l hl
      match l with
      | [] => exact ⟨List.Pairwise.nil, List.Perm.refl _⟩
      | x :: xs =>
          rw [exchSort_cons]
          obtain ⟨h1, h2, h3⟩ := exchPass_min κ xs x
          have hlen : (exchPass (fun a b => decide (κ b < κ a)) x xs).2.length ≤ n := by
            rw [exchPass_length]
            simpa using Nat.lt_succ_iff.mp (Nat.lt_of_lt_of_le (by simp) hl)
          obtain ⟨hpw, hperm⟩ := ih _ hlen
          refine ⟨List.Pairwise.cons ?_ hpw, ?_⟩
          · intro z hz
            exact h2 z (hperm.mem_iff.mp hz)
          · exact List.Perm.trans (List.Perm.cons _ hperm) h3

end Tui
end AGK
namespace AGK

/-- C7 (amended): after the tree build, every node's stored children list
(and the root list) is a permutation of the attached children sorted
non-decreasing by parsed StartTime; what the counterexample removes from
the original claim is the tie/unparseable stability — the exchange sort
may reorder tied siblings. -/
theorem c7_children_sorted_by_start_time (spans : List Tui.Span) (j : Nat) :
    List.Pairwise (fun a b => Tui.startKey spans a ≤ Tui.startKey spans b)
      (Tui.builtChildren spans j) ∧
    List.Perm (Tui.builtChildren spans j) (Tui.childrenOf spans j) ∧
    List.Pairwise (fun a b => Tui.startKey spans a ≤ Tui.startKey spans b)
      (Tui.builtRoots spans) ∧
    List.Perm (Tui.builtRoots spans) (Tui.rootsOf spans) := by
  have hc := Tui.exchSort_sorted_perm (Tui.startKey spans)
    (Tui.childrenOf spans j).length (Tui.childrenOf spans j) (le_refl _)
  have hr := Tui.exchSort_sorted_perm (Tui.startKey spans)
    (Tui.rootsOf spans).length (Tui.rootsOf spans) (le_refl _)
  exact ⟨hc.1, hc.2, hr.1, hr.2⟩

end AGK
namespace AGK
namespace Audit

theorem eventAt_lt (obj : TraceObject) (i : Nat) (h : i < obj.events.length) :
    eventAt obj i = obj.events[i] := by
  simp [eventAt, List.getD_eq_getElem?_getD, List.getElem?_eq_getElem h]

theorem spanID_inj (obj : TraceObject)
    (hids : (obj.events.map (fun e => e.spanID)).Nodup) :
    ∀ i j, i < obj.events.length → j < obj.events.length →
      (eventAt obj i).spanID = (eventAt obj j).spanID → i = j := by
  intro i j hi hj heq
  rw [eventAt_lt obj i hi, eventAt_lt obj j hj] at heq
  have hi2 : i < (obj.events.map (fun e => e.spanID)).length := by simpa
  have hj2 : j < (obj.events.map (fun e => e.spanID)).length := by simpa
  have hmap : (obj.events.map (fun e => e.spanID))[i] =
      (obj.events.map (fun e => e.spanID))[j] := by
    simpa using heq
  exact (hids.getElem_inj_iff).mp hmap

theorem mem_childIdxsOf (obj : TraceObject) (pid : String) (c : Nat) :
    c ∈ childIdxsOf obj pid ↔
      c < obj.events.length ∧ hasParentRef (eventAt obj c) = true ∧
        (eventAt obj c).parentID = pid := by
  simp [childIdxsOf, List.mem_filter, List.mem_range, and_assoc]

theorem spanIDToIndex_some (obj : TraceObject) (pid : String) (q : Nat)
    (h : spanIDToIndex obj pid = some q) :
    q < obj.events.length ∧ (eventAt obj q).spanID = pid := by
  unfold spanIDToIndex at h
  have hq : q ∈ (List.range obj.events.length).filter
      (fun j => (eventAt obj j).spanID = pid) := by
    obtain ⟨hne, heq⟩ := List.mem_getLast?_eq_getLast (Option.mem_def.mpr h)
    rw [heq]
    exact List.getLast_mem hne
  have := List.mem_filter.mp hq
  exact ⟨List.mem_range.mp this.1, by simpa using this.2⟩

theorem spanIDToIndex_self (obj : TraceObject)
    (hids : (obj.events.map (fun e => e.spanID)).Nodup)
    (p : Nat) (hp : p < obj.events.length) :
    spanIDToIndex obj ((eventAt obj p).spanID) = some p := by
  have hpmem : p ∈ (List.range obj.events.length).filter
      (fun j => (eventAt obj j).spanID = (eventAt obj p).spanID) :=
    List.mem_filter.mpr ⟨List.mem_range.mpr hp, by simp⟩
  have hne := List.ne_nil_of_mem hpmem
  unfold spanIDToIndex
  rw [List.getLast?_eq_getLast_of_ne_nil hne]
  have hqmem := List.mem_filter.mp (List.getLast_mem hne)
  have hq := spanID_inj obj hids _ p (List.mem_range.mp hqmem.1) hp (by simpa using hqmem.2)
  rw [hq]

theorem mem_parentIndices (obj : TraceObject)
    (hids : (obj.events.map (fun e => e.spanID)).Nodup) (p : Nat) :
    p ∈ parentIndices obj ↔
      p < obj.events.length ∧
        childIdxsOf obj ((eventAt obj p).spanID) ≠ [] := by
  unfold parentIndices
  rw [List.mem_filter, List.mem_range]
  constructor
  · intro ⟨hp, hcond⟩
    simp only [Bool.and_eq_true, decide_eq_true_eq, Bool.not_eq_true'] at hcond
    refine ⟨hp, ?_⟩
    intro hnil
    rw [hnil] at hcond
    simp at hcond
  · intro ⟨hp, hne⟩
    refine ⟨hp, ?_⟩
    simp only [Bool.and_eq_true, decide_eq_true_eq, Bool.not_eq_true']
    exact ⟨spanIDToIndex_self obj hids p hp, by simpa using hne⟩

theorem addLink_mem (edges : List (Nat × Nat)) (e x : Nat × Nat) :
    x ∈ addLink edges e ↔ x ∈ edges ∨ x = e := by
  unfold addLink
  split
  · rename_i hmem
    constructor
    · exact Or.inl
    · intro h
      rcases h with h | rfl
      · exact h
      · exact hmem
  · simp

theorem addLink_nodup (edges : List (Nat × Nat)) (e : Nat × Nat)
    (h : edges.Nodup) : (addLink edges e).Nodup := by
  unfold addLink
  split
  · exact h
  · rename_i hmem
    simpa [List.nodup_append] using ⟨h, hmem⟩

theorem foldl_addLink_children (obj : TraceObject) (p : Nat) :
    ∀ (cs : List Nat) (edges : List (Nat × Nat)),
      (∀ x, x ∈ cs.foldl (fun e c => addLink e (p, c)) edges ↔
        x ∈ edges ∨ ∃ c ∈ cs, x = (p, c)) ∧
      (edges.Nodup → (cs.foldl (fun e c => addLink e (p, c)) edges).Nodup) := by
  intro cs
  induction cs with
  | nil => intro edges; simp
  | cons c cs' ih =>
      intro edges
      simp only [List.foldl_cons]
      obtain ⟨ihmem, ihnd⟩ := ih (addLink edges (p, c))
      constructor
      · intro x
        rw [ihmem x, addLink_mem]
        constructor
        · intro h
          rcases h with (h | rfl) | ⟨c', hc', rfl⟩
          · exact Or.inl h
          · exact Or.inr ⟨c, List.mem_cons_self _ _, rfl⟩
          · exact Or.inr ⟨c', List.mem_cons_of_mem _ hc', rfl⟩
        · intro h
          rcases h with h | ⟨c', hc', rfl⟩
          · exact Or.inl (Or.inl h)
          · rcases List.mem_cons.mp hc' with rfl | hc2
            · exact Or.inl (Or.inr rfl)
            · exact Or.inr ⟨c', hc2, rfl⟩
      · intro hnd
        exact ihnd (addLink_nodup edges (p, c) hnd)

end Audit
end AGK
namespace AGK
namespace Audit

theorem mem_sortInts (l : List Nat) (c : Nat) : c ∈ sortInts l ↔ c ∈ l :=
  (insertionSort_perm (fun a b => a ≤ b) l).mem_iff

theorem generalParentEdges_nonseq (obj : TraceObject) (edges : List (Nat × Nat))
    (p : Nat) (h : isWorkflowSequential (eventAt obj p) = false) :
    generalParentEdges obj edges p =
      (sortInts (childIdxsOf obj ((eventAt obj p).spanID))).foldl
        (fun e c => addLink e (p, c)) edges := by
  unfold generalParentEdges
  rw [if_neg (by simp [h])]

theorem foldl_generalParentEdges (obj : TraceObject) :
    ∀ (ps : List Nat) (edges : List (Nat × Nat)),
      (∀ p ∈ ps, isWorkflowSequential (eventAt obj p) = false) →
      (∀ x, x ∈ ps.foldl (generalParentEdges obj) edges ↔
          x ∈ edges ∨ ∃ p ∈ ps,
            ∃ c ∈ childIdxsOf obj ((eventAt obj p).spanID), x = (p, c)) ∧
      (edges.Nodup → (ps.foldl (generalParentEdges obj) edges).Nodup) := by
  intro ps
  induction ps with
  | nil => intro edges _; simp
  | cons p ps' ih =>
      intro edges hseq
      have hp := hseq p (List.mem_cons_self _ _)
      have hrest : ∀ q ∈ ps', isWorkflowSequential (eventAt obj q) = false :=
        fun q hq => hseq q (List.mem_cons_of_mem _ hq)
      simp only [List.foldl_cons]
      obtain ⟨ihmem, ihnd⟩ := ih (generalParentEdges obj edges p) hrest
      obtain ⟨imem, ind⟩ := foldl_addLink_children obj p
        (sortInts (childIdxsOf obj ((eventAt obj p).spanID))) edges
      constructor
      · intro x
        rw [ihmem x, generalParentEdges_nonseq obj edges p hp, imem]
        constructor
        · intro h
          rcases h with (h | ⟨c, hc, rfl⟩) | ⟨p', hp', c, hc, rfl⟩
          · exact Or.inl h
          · exact Or.inr ⟨p, List.mem_cons_self _ _, c, (mem_sortInts _ c).mp hc, rfl⟩
          · exact Or.inr ⟨p', List.mem_cons_of_mem _ hp', c, hc, rfl⟩
        · intro h
          rcases h with h | ⟨p', hp', c, hc, rfl⟩
          · exact Or.inl (Or.inl h)
          · rcases List.mem_cons.mp hp' with rfl | hp2
            · exact Or.inl (Or.inr ⟨c, (mem_sortInts _ c).mpr hc, rfl⟩)
            · exact Or.inr ⟨p', hp2, c, hc, rfl⟩
      · intro hnd
        rw [generalParentEdges_nonseq obj edges p hp] at ihnd ⊢
        exact ihnd (ind hnd)

theorem mermaidEdges_no_seq (obj : TraceObject)
    (hseq : ∀ p ∈ parentIndices obj, isWorkflowSequential (eventAt obj p) = false) :
    mermaidEdges obj = (parentIndices obj).foldl (generalParentEdges obj) [] := by
  unfold mermaidEdges
  dsimp only
  rw [show (parentIndices obj).filter (fun p => isWorkflowSequential (eventAt obj p)) = []
    from List.filter_eq_nil.mpr (by simpa using hseq)]
  simp

end Audit

/-- C2 (amended): for traces with pairwise-distinct SpanIDs in which no
sequential-workflow container has resolved children, the diagram contains
exactly one (deduplicated) edge parent → child for every resolved
parent-child pair and nothing else.  The counterexample removes the
original "in particular ... always drawn" part: when a sequential
container with children exists, the generator emits only the sequential
chains and returns, dropping every other resolved pair; duplicate
SpanIDs would likewise divert edges to the last event with the parent's
id. -/
theorem c2_edges_iff_resolved_pairs (obj : Audit.TraceObject)
    (hids : (obj.events.map (fun e => e.spanID)).Nodup)
    (hseq : ∀ p ∈ Audit.parentIndices obj,
        Audit.isWorkflowSequential (Audit.eventAt obj p) = false) :
    (Audit.mermaidEdges obj).Nodup ∧
    (∀ p c, (p, c) ∈ Audit.mermaidEdges obj ↔
      (p < obj.events.length ∧ c < obj.events.length ∧
       Audit.hasParentRef (Audit.eventAt obj c) = true ∧
       (Audit.eventAt obj c).parentID = (Audit.eventAt obj p).spanID)) := by
  rw [Audit.mermaidEdges_no_seq obj hseq]
  obtain ⟨hmem, hnd⟩ := Audit.foldl_generalParentEdges obj (Audit.parentIndices obj) [] hseq
  refine ⟨hnd List.nodup_nil, ?_⟩
  intro p c
  rw [hmem (p, c)]
  simp only [List.not_mem_nil, false_or]
  constructor
  · rintro ⟨p', hp', c', hc', heq⟩
    obtain ⟨rfl, rfl⟩ := Prod.mk.injEq .. ▸ And.intro (congrArg Prod.fst heq) (congrArg Prod.snd heq)
    obtain ⟨hplt, _⟩ := (Audit.mem_parentIndices obj hids p).mp hp'
    obtain ⟨hclt, href, hpid⟩ := (Audit.mem_childIdxsOf obj _ c).mp hc'
    exact ⟨hplt, hclt, href, hpid⟩
  · rintro ⟨hplt, hclt, href, hpid⟩
    have hcmem : c ∈ Audit.childIdxsOf obj ((Audit.eventAt obj p).spanID) :=
      (Audit.mem_childIdxsOf obj _ c).mpr ⟨hclt, href, hpid⟩
    have hpmem : p ∈ Audit.parentIndices obj :=
      (Audit.mem_parentIndices obj hids p).mpr ⟨hplt, List.ne_nil_of_mem hcmem⟩
    exact ⟨p, hpmem, c, hcmem, rfl⟩

end AGK
namespace AGK
namespace Fixtures
def plainScenario : Audit.TraceObject :=
  { emptyTraceObject with
      events := [mkEvt "plainparent" "p" "" [], mkEvt "plainchild" "q" "p" []] }
end Fixtures

/-- C2 witness: the hypotheses discharged on a two-event trace with one
resolved pair, whose edge is drawn. -/
theorem c2_witness :
    (0, 1) ∈ Audit.mermaidEdges Fixtures.plainScenario :=
  ((c2_edges_iff_resolved_pairs Fixtures.plainScenario (by decide) (by decide)).2 0 1).mpr (by decide)

end AGK
namespace AGK
namespace Tui

/-! ## Helper lemmas: ancestor chains and visibility -/

theorem parIter_succ_last (spans : List Span) :
    ∀ (k m : Nat), parIter spans (m + 1) k =
      (parIter spans m k).bind (parentResolve spans) := by
  intro k m
  induction m generalizing k with
  | zero =>
      show (parentResolve spans k).bind (parIter spans 0) = _
      cases h : parentResolve spans k <;> simp [parIter, h]
  | succ m ih =>
      show (parentResolve spans k).bind (parIter spans (m + 1)) = _
      have hk : parIter spans (m + 1) k =
          (parentResolve spans k).bind (parIter spans m) := rfl
      cases h : parentResolve spans k with
      | none => rw [hk, h]; rfl
      | some j =>
          rw [hk, h]
          show parIter spans (m + 1) j = (parIter spans m j).bind (parentResolve spans)
          exact ih j

theorem parIter_add (spans : List Span) :
    ∀ (a b k : Nat), parIter spans (a + b) k =
      (parIter spans a k).bind (parIter spans b) := by
  intro a
  induction a with
  | zero =>
      intro b k
      simp only [Nat.zero_add]
      rfl
  | succ a ih =>
      intro b k
      have h1 : a + 1 + b = a + b + 1 := by omega
      have h2 : parIter spans (a + 1) k =
          (parentResolve spans k).bind (parIter spans a) := rfl
      rw [h1]
      show (parentResolve spans k).bind (parIter spans (a + b)) = _
      rw [h2]
      cases h : parentResolve spans k with
      | none => rfl
      | some j =>
          show parIter spans (a + b) j = (parIter spans a j).bind (parIter spans b)
          exact ih b j

theorem parIter_none_after_root (spans : List Span) (k d i : Nat)
    (hd : parIter spans d k = some i) (hroot : parentResolve spans i = none) :
    ∀ m, d < m → parIter spans m k = none := by
  intro m hm
  have h1 : m = d + (m - d) := by omega
  rw [h1, parIter_add, hd]
  show parIter spans (m - d) i = none
  match hs : m - d with
  | 0 => omega
  | s + 1 =>
      show (parentResolve spans i).bind (parIter spans s) = none
      rw [hroot]
      rfl

theorem set_true_of_getD_true :
    ∀ (l : List Bool) (i : Nat), l.getD i true = true → l.set i true = l := by
  intro l
  induction l with
  | nil => intro i _; rfl
  | cons b bs ih =>
      intro i h
      match i with
      | 0 => simp_all
      | i + 1 =>
          simp only [List.set_cons_succ]
          rw [ih i (by simpa using h)]

theorem foldl_set_true_of_all_true :
    ∀ (lst : List Nat) (exp : List Bool),
      (∀ a ∈ lst, exp.getD a true = true) →
      lst.foldl (fun e a => e.set a true) exp = exp := by
  intro lst
  induction lst with
  | nil => intro exp _; rfl
  | cons a rest ih =>
      intro exp h
      simp only [List.foldl_cons]
      rw [set_true_of_getD_true exp a (h a (List.mem_cons_self _ _))]
      exact ih exp (fun b hb => h b (List.mem_cons_of_mem _ hb))

theorem mem_childrenOf (spans : List Span) (j c : Nat) :
    c ∈ childrenOf spans j ↔
      c ∈ entryIdxs spans ∧ parentResolve spans c = some j := by
  simp [childrenOf, List.mem_filter]

theorem mem_rootsOf (spans : List Span) (r : Nat) :
    r ∈ rootsOf spans ↔
      r ∈ entryIdxs spans ∧ parentResolve spans r = none := by
  simp [rootsOf, List.mem_filter, Option.isNone_iff_eq_none]

theorem mem_builtChildren (spans : List Span) (j c : Nat) :
    c ∈ builtChildren spans j ↔ c ∈ childrenOf spans j :=
  ((exchSort_sorted_perm (startKey spans) (childrenOf spans j).length
    (childrenOf spans j) (le_refl _)).2).mem_iff

theorem mem_builtRoots (spans : List Span) (r : Nat) :
    r ∈ builtRoots spans ↔ r ∈ rootsOf spans :=
  ((exchSort_sorted_perm (startKey spans) (rootsOf spans).length
    (rootsOf spans) (le_refl _)).2).mem_iff

theorem mem_ancList (spans : List Span) :
    ∀ (f k a : Nat), a ∈ ancList spans f k →
      ∃ m, 1 ≤ m ∧ m ≤ f ∧ parIter spans m k = some a := by
  intro f
  induction f with
  | zero => intro k a h; cases h
  | succ f ih =>
      intro k a h
      unfold ancList at h
      match hp : parentResolve spans k with
      | none => rw [hp] at h; cases h
      | some p =>
          rw [hp] at h
          rcases List.mem_cons.mp h with rfl | htail
          · exact ⟨1, le_refl _, by omega, by simp [parIter, hp]⟩
          · obtain ⟨m, hm1, hmf, hiter⟩ := ih p a htail
            refine ⟨m + 1, by omega, by omega, ?_⟩
            show (parentResolve spans k).bind (parIter spans m) = some a
            simp [hp, hiter]

end Tui
end AGK
namespace AGK
namespace Tui

theorem flattenVisIdx_path (spans : List Span) (exp : List Bool) :
    ∀ (fuel i k : Nat), k ∈ flattenVisIdx spans exp fuel i →
      ∃ d, d < fuel ∧ parIter spans d k = some i ∧
        (∀ m a, 1 ≤ m → m ≤ d → parIter spans m k = some a →
          exp.getD a true = true) := by
  intro fuel
  induction fuel with
  | zero => intro i k h; cases h
  | succ fuel ih =>
      intro i k h
      simp only [flattenVisIdx] at h
      rcases List.mem_cons.mp h with rfl | htail
      · exact ⟨0, by omega, rfl, fun m a hm1 hm0 _ => by omega⟩
      · by_cases hexp : exp.getD i true = true
        · rw [if_pos hexp] at htail
          obtain ⟨c, hc, hk⟩ := List.mem_flatMap.mp htail
          have hcr : parentResolve spans c = some i :=
            ((mem_childrenOf spans i c).mp ((mem_builtChildren spans i c).mp hc)).2
          obtain ⟨d, hd, hiter, hpath⟩ := ih c k hk
          refine ⟨d + 1, by omega, ?_, ?_⟩
          · rw [parIter_succ_last, hiter]
            show parentResolve spans c = some i
            exact hcr
          · intro m a hm1 hmd hma
            by_cases hm : m ≤ d
            · exact hpath m a hm1 hm hma
            · have hmeq : m = d + 1 := by omega
              subst hmeq
              rw [parIter_succ_last, hiter] at hma
              have hia : some i = some a := by
                rw [← hcr]
                exact hma
              injection hia with hia2
              rw [← hia2]
              exact hexp
        · rw [if_neg hexp] at htail
          cases htail

theorem visible_ancestors_expanded (spans : List Span) (exp : List Bool) (k : Nat)
    (hk : k ∈ flattenVisible spans exp) :
    ∀ a ∈ ancList spans spans.length k, exp.getD a true = true := by
  obtain ⟨r, hr, hkr⟩ := List.mem_flatMap.mp hk
  have hroot : parentResolve spans r = none :=
    ((mem_rootsOf spans r).mp ((mem_builtRoots spans r).mp hr)).2
  obtain ⟨d, hd, hiter, hpath⟩ := flattenVisIdx_path spans exp spans.length r k hkr
  intro a ha
  obtain ⟨m, hm1, hmn, hma⟩ := mem_ancList spans spans.length k a ha
  by_cases hm : m ≤ d
  · exact hpath m a hm1 hm hma
  · have hnone := parIter_none_after_root spans k d r hiter hroot m (by omega)
    rw [hnone] at hma
    cases hma

theorem ensureNodeVisible_noop (m : TuiModel) (k : Nat)
    (hwf : m.visibleNodes = flattenVisible m.spans m.expanded)
    (hk : k ∈ flattenVisible m.spans m.expanded) :
    ensureNodeVisible m k = m := by
  unfold ensureNodeVisible
  rw [foldl_set_true_of_all_true _ _ (visible_ancestors_expanded m.spans m.expanded k hk)]
  dsimp only
  rw [← hwf]

theorem mem_drop_range (n j x : Nat) : x ∈ (List.range n).drop j ↔ j ≤ x ∧ x < n := by
  constructor
  · intro h
    obtain ⟨i, hi, hx⟩ := List.getElem_of_mem h
    rw [List.getElem_drop] at hx
    have hlen := hi
    simp only [List.length_drop, List.length_range] at hlen
    rw [List.getElem_range] at hx
    omega
  · intro hx
    refine List.mem_iff_getElem.mpr ⟨x - j, ?_, ?_⟩
    · simp only [List.length_drop, List.length_range]
      omega
    · rw [List.getElem_drop, List.getElem_range]
      omega

end Tui
end AGK
namespace AGK

/-- C3 (amended). When the explorer state is well formed (`visibleNodes` is the
flatten of the expansion state), the error count is nonzero, and at least one
node of the *visible* list carries an error status, pressing `e`
(`jumpToNextError`) lands the cursor on a visible error node: the visible list
is unchanged (the targets ancestors are already expanded, so
`ensureNodeVisible` is a no-op), the new cursor is in range, and the node under
the cursor has an error status. The original claim promised this for any error
span in the file; `AGK.c3_counterexample` shows an error inside a collapsed
subtree is never found because the scan runs over `m.visibleNodes` only. -/
theorem c3_jump_next_error_reaches_visible_error (m : Tui.TuiModel)
    (hwf : m.visibleNodes = Tui.flattenVisible m.spans m.expanded)
    (herr : m.errorCount ≠ 0)
    (hcur : m.cursor < m.visibleNodes.length)
    (hvis : ∃ i, i < m.visibleNodes.length ∧
        Tui.isErrorIdx m.spans (m.visibleNodes.getD i 0) = true) :
    (Tui.jumpToNextError m).visibleNodes = m.visibleNodes ∧
    (Tui.jumpToNextError m).cursor < m.visibleNodes.length ∧
    Tui.isErrorIdx m.spans
      (m.visibleNodes.getD (Tui.jumpToNextError m).cursor 0) = true := by
  have hmain : ∀ i, i < m.visibleNodes.length →
      Tui.isErrorIdx m.spans (m.visibleNodes.getD i 0) = true →
      (Tui.ensureNodeVisible { m with cursor := i, focusArea := .tree }
          (m.visibleNodes.getD i 0)).visibleNodes = m.visibleNodes ∧
      (Tui.ensureNodeVisible { m with cursor := i, focusArea := .tree }
          (m.visibleNodes.getD i 0)).cursor < m.visibleNodes.length ∧
      Tui.isErrorIdx m.spans (m.visibleNodes.getD
        (Tui.ensureNodeVisible { m with cursor := i, focusArea := .tree }
          (m.visibleNodes.getD i 0)).cursor 0) = true := by
    intro i hilt hierr
    have htarget : m.visibleNodes.getD i 0 ∈ Tui.flattenVisible m.spans m.expanded := by
      rw [← hwf]
      have hgd : m.visibleNodes.getD i 0 = m.visibleNodes[i] := by
        rw [List.getD_eq_getElem?_getD, List.getElem?_eq_getElem hilt]
        rfl
      rw [hgd]
      exact List.getElem_mem _
    have hnoop := Tui.ensureNodeVisible_noop
      { m with cursor := i, focusArea := .tree } (m.visibleNodes.getD i 0) hwf htarget
    rw [hnoop]
    exact ⟨rfl, hilt, hierr⟩
  unfold Tui.jumpToNextError
  rw [if_neg herr]
  dsimp only
  match h1 : ((List.range m.visibleNodes.length).drop (m.cursor + 1)).find?
      (fun i => Tui.isErrorIdx m.spans (m.visibleNodes.getD i 0)) with
  | some i =>
      have hierr := List.find?_some h1
      have hilt : i < m.visibleNodes.length :=
        ((Tui.mem_drop_range _ _ _).mp (List.mem_of_find?_eq_some h1)).2
      exact hmain i hilt hierr
  | none =>
      obtain ⟨k, hklt, hkerr⟩ := hvis
      have hkle : k < m.cursor + 1 := by
        by_contra hgt
        have hkmem : k ∈ (List.range m.visibleNodes.length).drop (m.cursor + 1) :=
          (Tui.mem_drop_range _ _ _).mpr ⟨by omega, hklt⟩
        exact (List.find?_eq_none.mp h1 k hkmem) hkerr
      have hsome : (((List.range (m.cursor + 1)).find?
          (fun i => Tui.isErrorIdx m.spans (m.visibleNodes.getD i 0)))).isSome := by
        rw [List.find?_isSome]
        exact ⟨k, List.mem_range.mpr hkle, hkerr⟩
      match h2 : ((List.range (m.cursor + 1)).find?
          (fun i => Tui.isErrorIdx m.spans (m.visibleNodes.getD i 0))) with
      | none => rw [h2] at hsome; cases hsome
      | some i =>
          have hierr := List.find?_some h2
          have hilt : i < m.visibleNodes.length := by
            have := List.mem_range.mp (List.mem_of_find?_eq_some h2)
            omega
          exact hmain i hilt hierr

end AGK
namespace AGK

/-- Witness for C3: on the live two-span fixture (root plus an error child,
both visible) the jump moves the cursor to the error child. -/
theorem c3_witness :
    (Tui.jumpToNextError Fixtures.liveModel).visibleNodes =
        Fixtures.liveModel.visibleNodes ∧
    (Tui.jumpToNextError Fixtures.liveModel).cursor <
        Fixtures.liveModel.visibleNodes.length ∧
    Tui.isErrorIdx Fixtures.liveModel.spans
      (Fixtures.liveModel.visibleNodes.getD
        (Tui.jumpToNextError Fixtures.liveModel).cursor 0) = true :=
  c3_jump_next_error_reaches_visible_error Fixtures.liveModel (by decide) (by decide) (by decide)
    ⟨1, by decide, by decide⟩

end AGK
namespace AGK
namespace Tui

theorem insertEntry_append (k : String) (v : Nat) (m : List (String × Nat))
    (h : ∀ p ∈ m, p.1 ≠ k) : insertEntry k v m = m ++ [(k, v)] := by
  induction m with
  | nil => rfl
  | cons p rest ih =>
      obtain ⟨k', v'⟩ := p
      unfold insertEntry
      rw [if_neg (h (k', v') (by simp))]
      rw [ih (fun q hq => h q (by simp [hq]))]
      rfl

theorem foldl_insertEntry (l : List (Nat × Span)) :
    ∀ (acc : List (String × Nat)),
      ((l.map (fun p => p.2.spanContext.spanID)).Nodup) →
      (∀ p ∈ l, ∀ q ∈ acc, q.1 ≠ p.2.spanContext.spanID) →
      l.foldl (fun m p => insertEntry (p.2.spanContext.spanID) p.1 m) acc =
        acc ++ l.map (fun p => (p.2.spanContext.spanID, p.1)) := by
  induction l with
  | nil => intro acc _ _; simp
  | cons p rest ih =>
      intro acc hnd hdis
      simp only [List.map_cons, List.nodup_cons] at hnd
      simp only [List.foldl_cons, List.map_cons]
      rw [insertEntry_append _ _ acc (fun q hq => hdis p (by simp) q hq)]
      rw [ih (acc ++ [(p.2.spanContext.spanID, p.1)]) hnd.2 ?hdis2]
      · simp
      case hdis2 =>
        intro r hr q hq
        rcases List.mem_append.mp hq with hq1 | hq2
        · exact hdis r (by simp [hr]) q hq1
        · have : q = (p.2.spanContext.spanID, p.1) := by simpa using hq2
          subst this
          intro hcontra
          exact hnd.1 (List.mem_map.mpr ⟨r, hr, hcontra.symm⟩)

theorem mapEntries_eq_of_nodup (spans : List Span)
    (hids : (spans.map (fun s => s.spanContext.spanID)).Nodup) :
    mapEntries spans = spans.enum.map (fun p => (p.2.spanContext.spanID, p.1)) := by
  unfold mapEntries
  rw [foldl_insertEntry spans.enum [] ?hnd (fun p _ q hq => absurd hq (by simp))]
  · simp
  case hnd =>
    have hcomp : spans.enum.map (fun p => p.2.spanContext.spanID) =
        spans.map (fun s => s.spanContext.spanID) := by
      rw [show (fun (p : Nat × Span) => p.2.spanContext.spanID) =
          (fun s : Span => s.spanContext.spanID) ∘ Prod.snd from rfl,
        ← List.map_map, List.enum_map_snd]
    rw [hcomp]
    exact hids

theorem entryIdxs_eq_range (spans : List Span)
    (hids : (spans.map (fun s => s.spanContext.spanID)).Nodup) :
    entryIdxs spans = List.range spans.length := by
  unfold entryIdxs
  rw [mapEntries_eq_of_nodup spans hids, List.map_map]
  rw [show ((fun x : String × Nat => x.2) ∘
      (fun p : Nat × Span => (p.2.spanContext.spanID, p.1))) = Prod.fst from rfl]
  exact List.enum_map_fst spans

theorem lookupEntry_mem (k : String) :
    ∀ (m : List (String × Nat)) (v : Nat), lookupEntry k m = some v → (k, v) ∈ m := by
  intro m
  induction m with
  | nil => intro v h; cases h
  | cons p rest ih =>
      obtain ⟨k', v'⟩ := p
      intro v h
      unfold lookupEntry at h
      split at h
      · rename_i heq
        cases h
        subst heq
        simp
      · exact List.mem_cons_of_mem _ (ih v h)

theorem parentResolve_lt (spans : List Span)
    (hids : (spans.map (fun s => s.spanContext.spanID)).Nodup)
    (i j : Nat) (h : parentResolve spans i = some j) : j < spans.length := by
  unfold parentResolve at h
  dsimp only at h
  split at h
  · cases h
  · have hm := lookupEntry_mem _ _ _ h
    rw [mapEntries_eq_of_nodup spans hids] at hm
    obtain ⟨p, hp, heq⟩ := List.mem_map.mp hm
    obtain ⟨idx, s⟩ := p
    have hj : j = idx := by
      have := congrArg Prod.snd heq.symm
      simpa using this
    subst hj
    rw [List.mem_enum_iff_getElem?] at hp
    exact (List.getElem?_eq_some_iff.mp hp).1

end Tui
end AGK
namespace AGK
namespace Tui

theorem rankF_lt (spans : List Span) :
    ∀ (f i r : Nat), rankF spans f i = some r → r < f := by
  intro f
  induction f with
  | zero => intro i r h; cases h
  | succ f ih =>
      intro i r h
      unfold rankF at h
      cases hp : parentResolve spans i with
      | none =>
          rw [hp] at h
          dsimp only at h
          cases h
          omega
      | some j =>
          rw [hp] at h
          dsimp only at h
          cases hr : rankF spans f j with
          | none => rw [hr] at h; simp at h
          | some s =>
              rw [hr] at h
              simp only [Option.map_some', Option.some.injEq] at h
              have := ih j s hr
              omega

theorem rankF_mono (spans : List Span) :
    ∀ (f g i r : Nat), f ≤ g → rankF spans f i = some r → rankF spans g i = some r := by
  intro f
  induction f with
  | zero => intro g i r _ h; cases h
  | succ f ih =>
      intro g i r hfg h
      match g, hfg with
      | g + 1, hfg =>
          unfold rankF at h ⊢
          cases hp : parentResolve spans i with
          | none => rw [hp] at h; exact h
          | some j =>
              rw [hp] at h
              dsimp only at h
              show Option.map (fun x => x + 1) (rankF spans g j) = some r
              cases hr : rankF spans f j with
              | none => rw [hr] at h; cases h
              | some s =>
                  rw [hr] at h
                  rw [ih g j s (by omega) hr]
                  exact h

theorem rankF_step (spans : List Span) (f i j r : Nat)
    (h : rankF spans (f + 1) i = some r) (hp : parentResolve spans i = some j) :
    ∃ s, r = s + 1 ∧ rankF spans f j = some s := by
  unfold rankF at h
  rw [hp] at h
  dsimp only at h
  cases hr : rankF spans f j with
  | none => rw [hr] at h; cases h
  | some s =>
      rw [hr] at h
      simp only [Option.map_some', Option.some.injEq] at h
      exact ⟨s, h.symm, rfl⟩

theorem parIter_rank (spans : List Span) (n : Nat) :
    ∀ (d k a r : Nat), rankF spans n k = some r → parIter spans d k = some a →
      d ≤ r ∧ rankF spans n a = some (r - d) := by
  intro d
  induction d with
  | zero =>
      intro k a r hr h
      cases h
      exact ⟨Nat.zero_le _, hr⟩
  | succ d ih =>
      intro k a r hr h
      have hstep : (parentResolve spans k).bind (parIter spans d) = some a := h
      cases hp : parentResolve spans k with
      | none => rw [hp] at hstep; cases hstep
      | some p =>
          rw [hp, Option.some_bind] at hstep
          match n, hr with
          | n + 1, hr =>
              obtain ⟨s, hrs, hsp⟩ := rankF_step spans n k p r hr hp
              have hsp' : rankF spans (n + 1) p = some s :=
                rankF_mono spans n (n + 1) p s (by omega) hsp
              obtain ⟨hds, hra⟩ := ih p a s hsp' hstep
              refine ⟨by omega, ?_⟩
              have : s - d = r - (d + 1) := by omega
              rw [← this]
              exact hra

theorem no_parIter_cycle (spans : List Span) (n a e : Nat)
    (ha : (rankF spans n a).isSome) (he : 1 ≤ e) :
    parIter spans e a ≠ some a := by
  intro h
  obtain ⟨r, hr⟩ := Option.isSome_iff_exists.mp ha
  obtain ⟨hle, hra⟩ := parIter_rank spans n e a a r hr h
  rw [hr] at hra
  have : r = r - e := Option.some.inj hra
  omega

theorem parIter_lt (spans : List Span)
    (hids : (spans.map (fun s => s.spanContext.spanID)).Nodup) :
    ∀ (d k a : Nat), k < spans.length → parIter spans d k = some a →
      a < spans.length := by
  intro d
  induction d with
  | zero => intro k a hk h; cases h; exact hk
  | succ d ih =>
      intro k a hk h
      have hstep : (parentResolve spans k).bind (parIter spans d) = some a := h
      cases hp : parentResolve spans k with
      | none => rw [hp] at hstep; cases hstep
      | some p =>
          rw [hp, Option.some_bind] at hstep
          exact ih p a (parentResolve_lt spans hids k p hp) hstep

end Tui
end AGK
namespace AGK
namespace Tui

theorem flattenIdx_eq_vis (spans : List Span) :
    ∀ (fuel i : Nat), flattenIdx spans fuel i = flattenVisIdx spans [] fuel i := by
  intro fuel
  induction fuel with
  | zero => intro i; rfl
  | succ f ih =>
      intro i
      simp only [flattenIdx, flattenVisIdx]
      rw [if_pos (show ([] : List Bool).getD i true = true from rfl)]
      rw [funext ih]

theorem flattenIdx_path (spans : List Span) (fuel i k : Nat)
    (h : k ∈ flattenIdx spans fuel i) :
    ∃ d, d < fuel ∧ parIter spans d k = some i := by
  rw [flattenIdx_eq_vis] at h
  obtain ⟨d, hd, hp, _⟩ := flattenVisIdx_path spans [] fuel i k h
  exact ⟨d, hd, hp⟩

theorem mem_flattenIdx_of_parIter (spans : List Span)
    (hids : (spans.map (fun s => s.spanContext.spanID)).Nodup) :
    ∀ (d fuel k a : Nat), d < fuel → parIter spans d k = some a →
      k < spans.length → k ∈ flattenIdx spans fuel a := by
  intro d
  induction d with
  | zero =>
      intro fuel k a hd h hk
      cases h
      match fuel, hd with
      | f + 1, _ => exact List.mem_cons_self _ _
  | succ d ih =>
      intro fuel k a hd h hk
      rw [parIter_succ_last] at h
      cases hb : parIter spans d k with
      | none => rw [hb] at h; cases h
      | some b =>
          rw [hb, Option.some_bind] at h
          have hblt : b < spans.length := parIter_lt spans hids d k b hk hb
          have hbc : b ∈ builtChildren spans a := by
            rw [mem_builtChildren, mem_childrenOf, entryIdxs_eq_range spans hids]
            exact ⟨List.mem_range.mpr hblt, h⟩
          match fuel, hd with
          | f + 1, hd =>
              show k ∈ flattenIdx spans (f + 1) a
              simp only [flattenIdx]
              exact List.mem_cons_of_mem _
                (List.mem_flatMap.mpr ⟨b, hbc, ih f k b (by omega) hb hk⟩)

theorem rank_reaches_root (spans : List Span) :
    ∀ (f k r : Nat), rankF spans f k = some r →
      ∃ a, parIter spans r k = some a ∧ parentResolve spans a = none := by
  intro f
  induction f with
  | zero => intro k r h; cases h
  | succ f ih =>
      intro k r h
      unfold rankF at h
      cases hp : parentResolve spans k with
      | none =>
          rw [hp] at h
          dsimp only at h
          cases h
          exact ⟨k, rfl, hp⟩
      | some j =>
          rw [hp] at h
          dsimp only at h
          cases hr : rankF spans f j with
          | none => rw [hr] at h; cases h
          | some s =>
              rw [hr] at h
              simp only [Option.map_some', Option.some.injEq] at h
              obtain ⟨a, ha, haroot⟩ := ih j s hr
              refine ⟨a, ?_, haroot⟩
              rw [← h]
              show (parentResolve spans k).bind (parIter spans s) = some a
              rw [hp, Option.some_bind]
              exact ha

theorem flattenIdx_mem_lt (spans : List Span)
    (hids : (spans.map (fun s => s.spanContext.spanID)).Nodup) :
    ∀ (fuel a k : Nat), a < spans.length → k ∈ flattenIdx spans fuel a →
      k < spans.length := by
  intro fuel
  induction fuel with
  | zero => intro a k _ h; cases h
  | succ f ih =>
      intro a k ha h
      simp only [flattenIdx] at h
      rcases List.mem_cons.mp h with h1 | h2
      · subst h1; exact ha
      · obtain ⟨c, hc, hk⟩ := List.mem_flatMap.mp h2
        have hclt : c < spans.length := by
          have := (mem_builtChildren spans a c).mp hc
          rw [mem_childrenOf, entryIdxs_eq_range spans hids] at this
          exact List.mem_range.mp this.1
        exact ih c k hclt hk

end Tui
end AGK
namespace AGK
namespace Tui

theorem childrenOf_nodup (spans : List Span)
    (hids : (spans.map (fun s => s.spanContext.spanID)).Nodup) (a : Nat) :
    (childrenOf spans a).Nodup := by
  unfold childrenOf
  exact List.Nodup.filter _
    (by rw [entryIdxs_eq_range spans hids]; exact List.nodup_range _)

theorem rootsOf_nodup (spans : List Span)
    (hids : (spans.map (fun s => s.spanContext.spanID)).Nodup) :
    (rootsOf spans).Nodup := by
  unfold rootsOf
  exact List.Nodup.filter _
    (by rw [entryIdxs_eq_range spans hids]; exact List.nodup_range _)

theorem builtChildren_nodup (spans : List Span)
    (hids : (spans.map (fun s => s.spanContext.spanID)).Nodup) (a : Nat) :
    (builtChildren spans a).Nodup :=
  ((exchSort_sorted_perm (startKey spans) (childrenOf spans a).length
    (childrenOf spans a) (le_refl _)).2).nodup_iff.mpr (childrenOf_nodup spans hids a)

theorem builtRoots_nodup (spans : List Span)
    (hids : (spans.map (fun s => s.spanContext.spanID)).Nodup) :
    (builtRoots spans).Nodup :=
  ((exchSort_sorted_perm (startKey spans) (rootsOf spans).length
    (rootsOf spans) (le_refl _)).2).nodup_iff.mpr (rootsOf_nodup spans hids)

theorem subtree_disjoint (spans : List Span) (n a : Nat)
    (ha : (rankF spans n a).isSome) (f c₁ c₂ : Nat)
    (h1 : parentResolve spans c₁ = some a) (h2 : parentResolve spans c₂ = some a)
    (hne : c₁ ≠ c₂) :
    List.Disjoint (flattenIdx spans f c₁) (flattenIdx spans f c₂) := by
  intro k hk1 hk2
  obtain ⟨d₁, _, hp₁⟩ := flattenIdx_path spans f c₁ k hk1
  obtain ⟨d₂, _, hp₂⟩ := flattenIdx_path spans f c₂ k hk2
  have key : ∀ (x y dx dy : Nat), dx ≤ dy →
      parIter spans dx k = some x → parIter spans dy k = some y →
      parentResolve spans x = some a → parentResolve spans y = some a →
      x ≠ y → False := by
    intro x y dx dy hle hpx hpy hx hy hxyne
    have hxy : parIter spans (dy - dx) x = some y := by
      have hadd := parIter_add spans dx (dy - dx) k
      rw [show dx + (dy - dx) = dy from by omega, hpy, hpx, Option.some_bind] at hadd
      exact hadd.symm
    cases he : dy - dx with
    | zero =>
        rw [he] at hxy
        exact hxyne (Option.some.inj hxy)
    | succ e =>
        rw [he] at hxy
        have hay : parIter spans e a = some y := by
          have hfst : (parentResolve spans x).bind (parIter spans e) = some y := hxy
          rw [hx, Option.some_bind] at hfst
          exact hfst
        have hcyc : parIter spans (e + 1) a = some a := by
          rw [parIter_succ_last, hay, Option.some_bind]
          exact hy
        exact no_parIter_cycle spans n a (e + 1) ha (by omega) hcyc
  rcases Nat.le_total d₁ d₂ with hle | hle
  · exact key c₁ c₂ d₁ d₂ hle hp₁ hp₂ h1 h2 hne
  · exact key c₂ c₁ d₂ d₁ hle hp₂ hp₁ h2 h1 (Ne.symm hne)

theorem flattenIdx_nodup (spans : List Span)
    (hids : (spans.map (fun s => s.spanContext.spanID)).Nodup)
    (hacyc : ∀ i, i < spans.length → (rankF spans spans.length i).isSome) :
    ∀ (fuel a : Nat), a < spans.length → (flattenIdx spans fuel a).Nodup := by
  intro fuel
  induction fuel with
  | zero => intro a _; simp [flattenIdx]
  | succ f ih =>
      intro a ha
      simp only [flattenIdx]
      rw [List.nodup_cons]
      constructor
      · intro hmem
        obtain ⟨c, hc, hin⟩ := List.mem_flatMap.mp hmem
        have hcp : parentResolve spans c = some a := by
          have := (mem_builtChildren spans a c).mp hc
          exact ((mem_childrenOf spans a c).mp this).2
        obtain ⟨d, _, hpar⟩ := flattenIdx_path spans f c a hin
        have hcyc : parIter spans (d + 1) a = some a := by
          rw [parIter_succ_last, hpar, Option.some_bind]
          exact hcp
        exact no_parIter_cycle spans spans.length a (d + 1)
          (hacyc a ha) (by omega) hcyc
      · rw [List.nodup_flatMap]
        constructor
        · intro c hc
          have hclt : c < spans.length := by
            have := (mem_builtChildren spans a c).mp hc
            rw [mem_childrenOf, entryIdxs_eq_range spans hids] at this
            exact List.mem_range.mp this.1
          exact ih c hclt
        · refine List.Pairwise.imp_of_mem ?_ (builtChildren_nodup spans hids a)
          intro c₁ c₂ hm1 hm2 hne
          have hpc1 : parentResolve spans c₁ = some a :=
            ((mem_childrenOf spans a c₁).mp ((mem_builtChildren spans a c₁).mp hm1)).2
          have hpc2 : parentResolve spans c₂ = some a :=
            ((mem_childrenOf spans a c₂).mp ((mem_builtChildren spans a c₂).mp hm2)).2
          exact subtree_disjoint spans spans.length a (hacyc a ha) f c₁ c₂ hpc1 hpc2 hne

theorem flattenFull_nodup (spans : List Span)
    (hids : (spans.map (fun s => s.spanContext.spanID)).Nodup)
    (hacyc : ∀ i, i < spans.length → (rankF spans spans.length i).isSome) :
    (flattenFull spans).Nodup := by
  unfold flattenFull
  rw [List.nodup_flatMap]
  constructor
  · intro r hr
    have hrlt : r < spans.length := by
      have := (mem_builtRoots spans r).mp hr
      rw [mem_rootsOf, entryIdxs_eq_range spans hids] at this
      exact List.mem_range.mp this.1
    exact flattenIdx_nodup spans hids hacyc spans.length r hrlt
  · refine List.Pairwise.imp_of_mem ?_ (builtRoots_nodup spans hids)
    intro r₁ r₂ hm1 hm2 hne k hk1 hk2
    have hroot1 : parentResolve spans r₁ = none :=
      ((mem_rootsOf spans r₁).mp ((mem_builtRoots spans r₁).mp hm1)).2
    have hroot2 : parentResolve spans r₂ = none :=
      ((mem_rootsOf spans r₂).mp ((mem_builtRoots spans r₂).mp hm2)).2
    obtain ⟨d₁, _, hp₁⟩ := flattenIdx_path spans spans.length r₁ k hk1
    obtain ⟨d₂, _, hp₂⟩ := flattenIdx_path spans spans.length r₂ k hk2
    have key : ∀ (x y dx dy : Nat), dx ≤ dy →
        parIter spans dx k = some x → parIter spans dy k = some y →
        parentResolve spans x = none → x ≠ y → False := by
      intro x y dx dy hle hpx hpy hx hxyne
      have hxy : parIter spans (dy - dx) x = some y := by
        have hadd := parIter_add spans dx (dy - dx) k
        rw [show dx + (dy - dx) = dy from by omega, hpy, hpx, Option.some_bind] at hadd
        exact hadd.symm
      cases he : dy - dx with
      | zero =>
          rw [he] at hxy
          exact hxyne (Option.some.inj hxy)
      | succ e =>
          rw [he] at hxy
          have hfst : (parentResolve spans x).bind (parIter spans e) = some y := hxy
          rw [hx] at hfst
          cases hfst
    rcases Nat.le_total d₁ d₂ with hle | hle
    · exact key r₁ r₂ d₁ d₂ hle hp₁ hp₂ hroot1 hne
    · exact key r₂ r₁ d₂ d₁ hle hp₂ hp₁ hroot2 (Ne.symm hne)

theorem mem_flattenFull_lt (spans : List Span)
    (hids : (spans.map (fun s => s.spanContext.spanID)).Nodup)
    (k : Nat) (h : k ∈ flattenFull spans) : k < spans.length := by
  unfold flattenFull at h
  obtain ⟨r, hr, hk⟩ := List.mem_flatMap.mp h
  have hrlt : r < spans.length := by
    have := (mem_builtRoots spans r).mp hr
    rw [mem_rootsOf, entryIdxs_eq_range spans hids] at this
    exact List.mem_range.mp this.1
  exact flattenIdx_mem_lt spans hids spans.length r k hrlt hk

theorem mem_flattenFull_of_lt (spans : List Span)
    (hids : (spans.map (fun s => s.spanContext.spanID)).Nodup)
    (hacyc : ∀ i, i < spans.length → (rankF spans spans.length i).isSome)
    (k : Nat) (hk : k < spans.length) : k ∈ flattenFull spans := by
  obtain ⟨r, hr⟩ := Option.isSome_iff_exists.mp (hacyc k hk)
  obtain ⟨a, hpa, haroot⟩ := rank_reaches_root spans spans.length k r hr
  have halt : a < spans.length := parIter_lt spans hids r k a hk hpa
  have haRoots : a ∈ builtRoots spans := by
    rw [mem_builtRoots, mem_rootsOf, entryIdxs_eq_range spans hids]
    exact ⟨List.mem_range.mpr halt, haroot⟩
  have hrn : r < spans.length := rankF_lt spans spans.length k r hr
  unfold flattenFull
  exact List.mem_flatMap.mpr
    ⟨a, haRoots, mem_flattenIdx_of_parIter spans hids r spans.length k a hrn hpa hk⟩

end Tui

/-- C6 (amended). When all SpanIDs are distinct and every parent chain
terminates (no parent-reference cycles: each node reaches a root within
`spans.length` steps), flattening the fully-expanded forest yields
exactly one entry per input span: the flatten is a permutation of the
arena indices `0 .. spans.length - 1`, so its length equals the total
span count. The original claim extended this to duplicate-SpanID and
cyclic inputs; `AGK.c6_counterexample` refutes that reading (a duplicate
id is shadowed in the span-id map and vanishes from the flatten). -/
theorem c6_full_flatten_exactly_once (spans : List Tui.Span)
    (hids : (spans.map (fun s => s.spanContext.spanID)).Nodup)
    (hacyc : ∀ i, i < spans.length → (Tui.rankF spans spans.length i).isSome) :
    List.Perm (Tui.flattenFull spans) (List.range spans.length) ∧
    (Tui.flattenFull spans).length = spans.length := by
  have hnd := Tui.flattenFull_nodup spans hids hacyc
  have hmem : ∀ k, k ∈ Tui.flattenFull spans ↔ k < spans.length := fun k =>
    ⟨Tui.mem_flattenFull_lt spans hids k,
     Tui.mem_flattenFull_of_lt spans hids hacyc k⟩
  have hperm : List.Perm (Tui.flattenFull spans) (List.range spans.length) := by
    apply List.perm_of_nodup_nodup_toFinset_eq hnd (List.nodup_range _)
    ext x
    simp only [List.mem_toFinset, List.mem_range]
    exact hmem x
  exact ⟨hperm, by rw [hperm.length_eq, List.length_range]⟩

/-- Witness for C6: the four-span fixture (distinct ids, acyclic) flattens
to a permutation of its four arena indices. -/
theorem c6_witness :
    List.Perm (Tui.flattenFull Fixtures.tieSpans)
      (List.range Fixtures.tieSpans.length) ∧
    (Tui.flattenFull Fixtures.tieSpans).length = Fixtures.tieSpans.length :=
  c6_full_flatten_exactly_once Fixtures.tieSpans (by decide) (by decide)

end AGK
